import Mathlib

/-!
# Random region allocator of the Bennet test generator (`rand_alloc.c`)

A shallow embedding of `src/runtime/libcn/src/bennet/state/rand_alloc.c`, of the checkpoint
functions of `src/runtime/libcn/include/bennet/state/checkpoint.h`, and of the fixture
`src/tests/cn-test-gen/src/sorted_list_alt.insert.flaky.c` (namespace `SortedList`).

* `size_t` and `uintptr_t` are 64-bit unsigned machine integers: every C
  operation on them is written with an explicit reduction modulo `2 ^ 64`
  (`wadd`, `wsub`, `wnot`), pointers are their numeric addresses and `NULL`
  is the address `0`.
* The process-wide `global_rand_alloc`, the number of values drawn so far
  from the random source and the log of `cn_failure` reports form an explicit
  `State` that every operation takes and returns.
* `assert` halts the program: an operation yields `Outcome.halted` with the
  state reached at the failing assertion, or `Outcome.returned p s`.
* The `for (attempt = 0; attempt < 100; ++attempt)` loops are recursions on
  the number of attempts that remain, started at `100`.
-/

namespace RandAlloc

/-! ## Machine integers -/

/-- Number of values of a 64-bit `size_t` / `uintptr_t`. -/
def SZ : Nat := 2 ^ 64

/-- Number of values of a `uint32_t`. -/
def U32 : Nat := 2 ^ 32

/-- Unsigned 64-bit addition `a + b`. -/
def wadd (a b : Nat) : Nat := (a + b) % SZ

/-- Unsigned 64-bit subtraction `a - b` (also pointer difference cast to `size_t`). -/
def wsub (a b : Nat) : Nat := (a % SZ + (SZ - b % SZ)) % SZ

/-- Unsigned 64-bit complement `~a`. -/
def wnot (a : Nat) : Nat := SZ - 1 - a % SZ

/-! ## Data model -/

/-- The struct `rand_alloc_region` of `rand_alloc.c`: an allocated region. -/
structure rand_alloc_region where
  offset : Nat
  length : Nat
deriving DecidableEq, Repr

/-- Modelled from the spec: the macro-generated generic dynamic array `bennet_vector(T)` of the
absent header `bennet/utils/vector.h` is an ordinary growable sequence, here the list of its
elements in index order; `bennet_vector_init` and `bennet_vector_free` leave it empty. -/
abbrev bennet_vector (α : Type) : Type := List α

/-- Modelled from the spec: `bennet_vector_push` appends an element at the end. -/
abbrev bennet_vector_push {α : Type} (v : bennet_vector α) (x : α) : bennet_vector α := v ++ [x]

/-- Modelled from the spec: `bennet_vector_delete` removes the element at index `i` and keeps
the order of the others. -/
abbrev bennet_vector_delete {α : Type} (v : bennet_vector α) (i : Nat) : bennet_vector α :=
  v.eraseIdx i

/-- The struct `rand_alloc` of `rand_alloc.c`; `buffer = 0` is the `NULL` buffer of an
allocator that has not been initialised, `regions` holds the live regions in insertion order. -/
structure rand_alloc where
  buffer : Nat
  buffer_len : Nat
  regions : bennet_vector rand_alloc_region
deriving DecidableEq, Repr

/-- Modelled from the spec: the domain constraint `bennet_domain(uintptr_t)` declared in the
absent header `bennet/internals/domain.h`, with the fields `rand_alloc.c` reads. An
optional field is an `Option`; `bennet_optional_unwrap_or` is `Option.getD`. -/
structure bennet_domain where
  lower_bound_inc : Option Nat
  upper_bound_inc : Option Nat
  lower_offset_bound : Nat
  upper_offset_bound : Nat
  multiple : Option Nat
deriving DecidableEq, Repr

/-- Modelled from the spec: the failure kinds passed to `cn_failure`; only `CN_FAILURE_ALLOC` is
used by the allocator. -/
inductive cn_failure_mode where
  | CN_FAILURE_ALLOC
  | CN_FAILURE_OTHER
deriving DecidableEq, Repr

/-- Modelled from the spec: the provenance tag of a failure, machinery-internal (`NON_SPEC`) or
specification-derived (`SPEC`). -/
inductive spec_mode where
  | NON_SPEC
  | SPEC
deriving DecidableEq, Repr

/-- The state the allocator works on: the global allocator, the number of values drawn
from the random source so far, and the failures reported through `cn_failure`. -/
structure State where
  global_rand_alloc : rand_alloc
  draws : Nat
  failures : List (cn_failure_mode × spec_mode)
deriving DecidableEq, Repr

/-- What the allocator does not define itself: the address `malloc` hands out for the arena
(`0` when it fails), the random source (`rnd i n` is the value of draw number `i` when asked
for a value below `n`), and `alignof(max_align_t)`. -/
structure Env where
  malloc_result : Nat
  rnd : Nat → Nat → Nat
  max_align : Nat

/-- How a call ends: halted at a failing `assert`, or returned a pointer (`0` is `NULL`,
also used for `void`). -/
inductive Outcome where
  | halted (s : State)
  | returned (p : Nat) (s : State)
deriving DecidableEq, Repr

/-- The constant `RAND_ALLOC_MEM_SIZE`: 16 MiB. -/
def RAND_ALLOC_MEM_SIZE : Nat := 1024 * 1024 * 16

/-- The retry budget `max_attempts` of both allocation loops. -/
def max_attempts : Nat := 100

/-! ## External collaborators -/

/-- Modelled from the spec: the Uniform Random Source `bennet_uniform_uint64_t(s)`; draw number
`i` of the source, with argument and result carried in a `uint64_t`. -/
def bennet_uniform_uint64_t (E : Env) (i s : Nat) : Nat := E.rnd i (s % SZ) % SZ

/-- Modelled from the spec: the Uniform Random Source `bennet_uniform_uint32_t(s)`; draw number
`i` of the source, with argument and result carried in a `uint32_t`. -/
def bennet_uniform_uint32_t (E : Env) (i s : Nat) : Nat := E.rnd i (s % U32) % U32

/-- Modelled from the spec: `cn_failure(mode, spec_mode)` reports a recoverable failure and
returns; the report is appended to the log. -/
def cn_failure (mode : cn_failure_mode) (sm : spec_mode) (s : State) : State :=
  { s with failures := s.failures ++ [(mode, sm)] }

/-- The contract of the random source: asked for a value below `n > 0` it answers in `[0, n)`. -/
def RandInRange (rnd : Nat → Nat → Nat) : Prop := ∀ i n, 0 < n → rnd i n < n

/-! ## The allocator -/

/-- The function `bennet_rand_alloc_init`: lazy creation of the arena. -/
def bennet_rand_alloc_init (E : Env) (a : rand_alloc) : rand_alloc :=
  if a.buffer ≠ 0 then a
  else { buffer := E.malloc_result, buffer_len := RAND_ALLOC_MEM_SIZE, regions := [] }

/-- The state after the call of `bennet_rand_alloc_init` that opens every allocation. -/
def init_state (E : Env) (s : State) : State :=
  { s with global_rand_alloc := bennet_rand_alloc_init E s.global_rand_alloc }

/-- The helper `overlaps`: does `[offset, offset + length)` meet a live region? -/
def overlaps (regions : List rand_alloc_region) (offset length : Nat) : Bool :=
  let end_ := wadd offset length
  regions.any fun r =>
    let r_start := r.offset
    let r_end := wadd r_start r.length
    !(decide (end_ ≤ r_start) || decide (offset ≥ r_end))

/-- The state after `bennet_vector_push` of the region `{offset, length}`. -/
def push_region (s : State) (offset length : Nat) : State :=
  { s with global_rand_alloc :=
      { s.global_rand_alloc with
        regions := bennet_vector_push s.global_rand_alloc.regions
          { offset := offset, length := length } } }

/-- The state after one more draw from the random source. -/
def drawn (s : State) : State := { s with draws := s.draws + 1 }

/-- The retry loop of `bennet_rand_alloc` with `n` attempts left. -/
def bennet_rand_alloc_loop (E : Env) (length : Nat) : Nat → State → Outcome
  | 0, s => .returned 0 (cn_failure .CN_FAILURE_ALLOC .NON_SPEC s)
  | n + 1, s =>
    let max_offset := wsub s.global_rand_alloc.buffer_len length
    let offset := bennet_uniform_uint64_t E s.draws (wadd max_offset 1)
    if overlaps s.global_rand_alloc.regions offset length = false then
      .returned (wadd s.global_rand_alloc.buffer offset) (push_region (drawn s) offset length)
    else
      bennet_rand_alloc_loop E length n (drawn s)

/-- The function `bennet_rand_alloc`: allocate a random, non-overlapping region. -/
def bennet_rand_alloc (E : Env) (length : Nat) (s : State) : Outcome :=
  let s0 := init_state E s
  if length = 0 ∨ length > s0.global_rand_alloc.buffer_len then
    .returned 0 s0
  else
    bennet_rand_alloc_loop E length max_attempts s0

/-- The function `bennet_rand_alloc_free_all`: `bennet_vector_free` empties the table. -/
def bennet_rand_alloc_free_all (s : State) : Outcome :=
  .returned 0 { s with global_rand_alloc := { s.global_rand_alloc with regions := [] } }

/-- The function `bennet_rand_alloc_min_ptr`. -/
def bennet_rand_alloc_min_ptr (E : Env) (s : State) : Outcome :=
  let s0 := init_state E s
  .returned s0.global_rand_alloc.buffer s0

/-- The function `bennet_rand_alloc_max_ptr`. -/
def bennet_rand_alloc_max_ptr (E : Env) (s : State) : Outcome :=
  let s0 := init_state E s
  .returned (wsub (wadd s0.global_rand_alloc.buffer s0.global_rand_alloc.buffer_len) 1) s0

/-- The byte count `bytes` of `bennet_rand_alloc_bounded`: the footprint as computed in `size_t`. -/
def footprint (cs : bennet_domain) : Nat := wadd cs.lower_offset_bound cs.upper_offset_bound

/-- The resolved lower bound `low` of `bennet_rand_alloc_bounded`. -/
def resolved_low (a : rand_alloc) (cs : bennet_domain) : Nat :=
  cs.lower_bound_inc.getD a.buffer

/-- The resolved upper bound `high` of `bennet_rand_alloc_bounded`. -/
def resolved_high (a : rand_alloc) (cs : bennet_domain) : Nat :=
  cs.upper_bound_inc.getD (wsub (wadd a.buffer a.buffer_len) 1)

/-- The alignment used by `bennet_rand_alloc_bounded`. -/
def alignment (E : Env) (cs : bennet_domain) : Nat := cs.multiple.getD E.max_align

/-- The rounding `(raw_offset + (alignment - 1)) & ~(alignment - 1)`. -/
def align_up (raw_offset alignment : Nat) : Nat :=
  wadd raw_offset (wsub alignment 1) &&& wnot (wsub alignment 1)

/-- The retry loop of `bennet_rand_alloc_bounded` with `n` attempts left. -/
def bennet_rand_alloc_bounded_loop (E : Env) (cs : bennet_domain)
    (bytes min_offset max_offset range : Nat) : Nat → State → Outcome
  | 0, s => .returned 0 (cn_failure .CN_FAILURE_ALLOC .NON_SPEC s)
  | n + 1, s =>
    let raw_offset := wadd min_offset (bennet_uniform_uint32_t E s.draws range)
    let aligned_offset := align_up raw_offset (alignment E cs)
    if aligned_offset < min_offset ∨ max_offset < aligned_offset ∨
        max_offset < wsub (wadd aligned_offset bytes) 1 then
      bennet_rand_alloc_bounded_loop E cs bytes min_offset max_offset range n (drawn s)
    else if overlaps s.global_rand_alloc.regions aligned_offset bytes = false then
      .returned (wadd s.global_rand_alloc.buffer aligned_offset)
        (push_region (drawn s) aligned_offset bytes)
    else
      bennet_rand_alloc_bounded_loop E cs bytes min_offset max_offset range n (drawn s)

/-- The function `bennet_rand_alloc_bounded`: allocate a random, non-overlapping region within the
inclusive bounds of the domain. -/
def bennet_rand_alloc_bounded (E : Env) (cs : bennet_domain) (s : State) : Outcome :=
  let s0 := init_state E s
  let bytes := footprint cs
  if bytes = 0 then .halted s0
  else
    let buf_start := s0.global_rand_alloc.buffer
    let low := resolved_low s0.global_rand_alloc cs
    let high := resolved_high s0.global_rand_alloc cs
    if ¬ low ≤ high then .halted s0
    else
      let min_offset := wsub low buf_start
      let max_offset := wsub high buf_start
      let available_bytes := wadd (wsub max_offset min_offset) 1
      if max_offset < min_offset ∨ available_bytes < bytes then
        .returned 0 (cn_failure .CN_FAILURE_ALLOC .NON_SPEC s0)
      else
        let range := wadd (wsub available_bytes bytes) 1
        bennet_rand_alloc_bounded_loop E cs bytes min_offset max_offset range max_attempts s0

/-- The function `bennet_rand_alloc_free`: free the region that starts at `ptr`. -/
def bennet_rand_alloc_free (ptr : Nat) (s : State) : Outcome :=
  if ptr = 0 then .returned 0 s
  else if s.global_rand_alloc.buffer = 0 then .halted s
  else
    let offset := wsub ptr s.global_rand_alloc.buffer
    match s.global_rand_alloc.regions.findIdx? (fun r => r.offset == offset) with
    | some i =>
      .returned 0 { s with global_rand_alloc :=
        { s.global_rand_alloc with
          regions := bennet_vector_delete s.global_rand_alloc.regions i } }
    | none => .returned 0 s

/-! ## Sequences of calls -/

/-- A call of the allocator interface. -/
inductive Call where
  | alloc (length : Nat)
  | alloc_bounded (cs : bennet_domain)
  | free (ptr : Nat)
  | free_all
deriving DecidableEq, Repr

/-- One call on a state. -/
def call (E : Env) : Call → State → Outcome
  | .alloc length, s => bennet_rand_alloc E length s
  | .alloc_bounded cs, s => bennet_rand_alloc_bounded E cs s
  | .free ptr, s => bennet_rand_alloc_free ptr s
  | .free_all, s => bennet_rand_alloc_free_all s

/-- The state of an outcome. -/
def Outcome.state : Outcome → State
  | .halted s => s
  | .returned _ s => s

/-- A sequence of calls, each on the state the one before left; a halted call ends the run. -/
def run (E : Env) : List Call → State → Outcome
  | [], s => .returned 0 s
  | [c], s => call E c s
  | c :: cs, s =>
    match call E c s with
    | .halted t => .halted t
    | .returned _ t => run E cs t

/-- The state of a program at start: static storage is zeroed, nothing drawn or reported. -/
def initial_state : State :=
  { global_rand_alloc := { buffer := 0, buffer_len := 0, regions := [] }
    draws := 0
    failures := [] }

/-- No two live regions at different positions of the table have intersecting byte ranges. -/
def NoOverlap (regions : List rand_alloc_region) : Prop :=
  regions.Pairwise fun r1 r2 =>
    r1.offset + r1.length ≤ r2.offset ∨ r2.offset + r2.length ≤ r1.offset

instance (regions : List rand_alloc_region) : Decidable (NoOverlap regions) := by
  unfold NoOverlap; infer_instance

/-! ## Names for the locals of the allocation functions -/

/-- The state after `j` more draws from the random source. -/
def add_draws (s : State) (j : Nat) : State := { s with draws := s.draws + j }

/-- The local `min_offset` of `bennet_rand_alloc_bounded`. -/
def min_offset (a : rand_alloc) (cs : bennet_domain) : Nat :=
  wsub (resolved_low a cs) a.buffer

/-- The local `max_offset` of `bennet_rand_alloc_bounded`. -/
def max_offset (a : rand_alloc) (cs : bennet_domain) : Nat :=
  wsub (resolved_high a cs) a.buffer

/-- The local `available_bytes` of `bennet_rand_alloc_bounded`. -/
def available_bytes (a : rand_alloc) (cs : bennet_domain) : Nat :=
  wadd (wsub (max_offset a cs) (min_offset a cs)) 1

/-- The local `range` of `bennet_rand_alloc_bounded`. -/
def range (a : rand_alloc) (cs : bennet_domain) : Nat :=
  wadd (wsub (available_bytes a cs) (footprint cs)) 1

/-- The local `aligned_offset` that one attempt of the bounded loop computes in state `s`. -/
def candidate (E : Env) (cs : bennet_domain) (lo rg : Nat) (s : State) : Nat :=
  align_up (wadd lo (bennet_uniform_uint32_t E s.draws rg)) (alignment E cs)

/-- The bounds re-check of the bounded loop rejects the aligned offset `al`. -/
def out_of_bounds (bytes lo hi al : Nat) : Prop :=
  al < lo ∨ hi < al ∨ hi < wsub (wadd al bytes) 1

/-- The local `offset` that one attempt of the loop of `bennet_rand_alloc` draws in state `s`. -/
def drawn_offset (E : Env) (length : Nat) (s : State) : Nat :=
  bennet_uniform_uint64_t E s.draws (wadd (wsub s.global_rand_alloc.buffer_len length) 1)

/-- The arena after the lazy initialisation that opens a call on state `s`. -/
def arena (E : Env) (s : State) : rand_alloc := (init_state E s).global_rand_alloc

/-- The byte at offset `b` lies in a live region. -/
def covered (regions : List rand_alloc_region) (b : Nat) : Bool :=
  regions.any fun r => decide (r.offset ≤ b) && decide (b < r.offset + r.length)

/-- The number of bytes at the offsets `lo, ..., hi` that lie in no live region. -/
def free_bytes (regions : List rand_alloc_region) (lo hi : Nat) : Nat :=
  ((List.range' lo (hi + 1 - lo)).filter fun b => !covered regions b).length

/-- Both resolved bounds of the domain lie inside the arena that `malloc` provides. -/
def DomainInArena (E : Env) (cs : bennet_domain) : Prop :=
  E.malloc_result ≤ cs.lower_bound_inc.getD E.malloc_result ∧
  cs.upper_bound_inc.getD (E.malloc_result + RAND_ALLOC_MEM_SIZE - 1)
    < E.malloc_result + RAND_ALLOC_MEM_SIZE

/-- The allocator is as a run from the initial state leaves it when all domains lie inside the
arena: an existing arena is the one `malloc` provided, every live region lies inside the arena,
and no two live regions intersect. -/
def ArenaInvariant (E : Env) (a : rand_alloc) : Prop :=
  (a.buffer ≠ 0 → a.buffer = E.malloc_result ∧ a.buffer_len = RAND_ALLOC_MEM_SIZE) ∧
  (∀ r ∈ a.regions, r.offset + r.length ≤ RAND_ALLOC_MEM_SIZE) ∧
  NoOverlap a.regions

/-! ## Concrete inputs -/

/-- An address at which `malloc` places the arena in the examples. -/
def heap_base : Nat := 1048576

/-- An environment whose random source answers `v` reduced into the range asked for, whose
`malloc` places the arena at `heap_base`, and whose `alignof(max_align_t)` is 16. -/
def env_of (v : Nat) : Env :=
  { malloc_result := heap_base, rnd := fun _ n => v % n, max_align := 16 }

/-- The domain of the scenario of the specification: bounds `base + 100` and `base + 199`,
offset bounds 10 and 10, multiple 8. -/
def scenario_domain : bennet_domain :=
  { lower_bound_inc := some (heap_base + 100), upper_bound_inc := some (heap_base + 199),
    lower_offset_bound := 10, upper_offset_bound := 10, multiple := some 8 }

/-- The state the scenario call leaves when the random source answers 0. -/
def scenario_state : State :=
  { global_rand_alloc :=
      { buffer := heap_base, buffer_len := RAND_ALLOC_MEM_SIZE,
        regions := [{ offset := 104, length := 20 }] }
    draws := 1
    failures := [] }

/-- A domain whose lower bound is a multiple of 8 above the arena base. -/
def aligned_domain : bennet_domain :=
  { lower_bound_inc := some (heap_base + 96), upper_bound_inc := some (heap_base + 199),
    lower_offset_bound := 10, upper_offset_bound := 10, multiple := some 8 }

/-- The state the call on `aligned_domain` leaves when the random source answers 5. -/
def aligned_state : State :=
  { global_rand_alloc :=
      { buffer := heap_base, buffer_len := RAND_ALLOC_MEM_SIZE,
        regions := [{ offset := 104, length := 20 }] }
    draws := 1
    failures := [] }

/-- A domain of 100 bytes that ends just below the arena base, with a footprint of 100. -/
def below_domain_full : bennet_domain :=
  { lower_bound_inc := some (heap_base - 100), upper_bound_inc := some (heap_base - 1),
    lower_offset_bound := 50, upper_offset_bound := 50, multiple := some 4 }

/-- The same 100 bytes below the arena base, with a footprint of 10 and multiple 4. -/
def below_domain_small : bennet_domain :=
  { lower_bound_inc := some (heap_base - 100), upper_bound_inc := some (heap_base - 1),
    lower_offset_bound := 5, upper_offset_bound := 5, multiple := some 4 }

/-- The same 100 bytes below the arena base, with a footprint of 10 and multiple 8. -/
def below_domain_eight : bennet_domain :=
  { lower_bound_inc := some (heap_base - 100), upper_bound_inc := some (heap_base - 1),
    lower_offset_bound := 5, upper_offset_bound := 5, multiple := some 8 }

/-- A domain with no lower bound whose upper bound lies 4096 bytes past the end of the arena. -/
def overhanging_domain : bennet_domain :=
  { lower_bound_inc := none,
    upper_bound_inc := some (heap_base + RAND_ALLOC_MEM_SIZE + 4095),
    lower_offset_bound := 10, upper_offset_bound := 10, multiple := none }

/-- The initialised allocator of the examples with the given table, draws and reports. -/
def example_state (regions : List rand_alloc_region) (draws : Nat)
    (failures : List (cn_failure_mode × spec_mode)) : State :=
  { global_rand_alloc :=
      { buffer := heap_base, buffer_len := RAND_ALLOC_MEM_SIZE, regions := regions }
    draws := draws
    failures := failures }

/-- The table after the scan of `bennet_rand_alloc_free` for `offset`: the first region that
starts at `offset` is deleted, if there is one. -/
def free_table (regions : bennet_vector rand_alloc_region) (offset : Nat) :
    bennet_vector rand_alloc_region :=
  match regions.findIdx? (fun r => r.offset == offset) with
  | some i => bennet_vector_delete regions i
  | none => regions

/-- The state with the table replaced. -/
def with_regions (s : State) (regions : bennet_vector rand_alloc_region) : State :=
  { s with global_rand_alloc := { s.global_rand_alloc with regions := regions } }

/-- Every live region has a length of at least one byte. -/
def PositiveLengths (regions : List rand_alloc_region) : Prop :=
  ∀ r ∈ regions, 0 < r.length

/-- A random source that answers the values of a script, draw by draw, each reduced into the
range asked for (0 once the script is used up); `malloc` places the arena at `heap_base`. -/
def env_script (values : List Nat) : Env :=
  { malloc_result := heap_base, rnd := fun i n => values.getD i 0 % n, max_align := 16 }

/-- The candidate `[o, o + l)` lies inside the bytes of the region `r`. -/
def inside_region (r : rand_alloc_region) (o l : Nat) : Prop :=
  r.offset ≤ o ∧ o + l ≤ r.offset + r.length

instance (r : rand_alloc_region) (o l : Nat) : Decidable (inside_region r o l) := by
  unfold inside_region; infer_instance


/-- An arena filled by the region `[0, 2 ^ 24 - 64)` and the region of the last 64 bytes. -/
def full_arena_state : State :=
  example_state [{ offset := 0, length := 16777152 }, { offset := 16777152, length := 64 }] 2 []


/-! ## Checkpoints (`checkpoint.h`) -/

/-- The struct `bennet_checkpoint` of `checkpoint.h`. -/
structure bennet_checkpoint where
  frame_id : Nat
  alloc : Nat
  ownership : Nat
deriving DecidableEq, Repr

/-- The state of a generation run: the three subsystems whose marks a checkpoint holds, each
the stack of its entries with the oldest first, and the state of the random allocator. -/
structure Generator where
  bump : List Nat
  alloc_ledger : List Nat
  ownership_ledger : List Nat
  rand : State
deriving DecidableEq, Repr

/-- Modelled from the spec: `cn_bump_get_frame_id` of the absent Bump Scratch Stack, the current
frame identifier; the stack is modelled with a monotonic mark, the number of scratch
allocations made so far. -/
def cn_bump_get_frame_id (g : Generator) : Nat := g.bump.length

/-- Modelled from the spec: `cn_bump_free_after(frame_id)` of the absent Bump Scratch Stack frees
everything allocated since the frame. -/
def cn_bump_free_after (frame_id : Nat) (g : Generator) : Generator :=
  { g with bump := g.bump.take frame_id }

/-- Modelled from the spec: `bennet_alloc_save` of the absent `bennet/state/alloc.h`, a ledger
with a monotonic mark like the Ownership Ledger. -/
def bennet_alloc_save (g : Generator) : Nat := g.alloc_ledger.length

/-- Modelled from the spec: `bennet_alloc_restore(size)` of the absent `bennet/state/alloc.h`
truncates its ledger to the mark; it has no interaction with the Region Table. -/
def bennet_alloc_restore (size : Nat) (g : Generator) : Generator :=
  { g with alloc_ledger := g.alloc_ledger.take size }

/-- Modelled from the spec: `bennet_ownership_save` of the absent Ownership Ledger, its current
monotonic mark. -/
def bennet_ownership_save (g : Generator) : Nat := g.ownership_ledger.length

/-- Modelled from the spec: `bennet_ownership_restore(size)` of the absent Ownership Ledger
truncates the ledger to the mark, discarding the facts recorded since. -/
def bennet_ownership_restore (size : Nat) (g : Generator) : Generator :=
  { g with ownership_ledger := g.ownership_ledger.take size }

/-- The function `bennet_checkpoint_save` of `checkpoint.h`. -/
def bennet_checkpoint_save (g : Generator) : bennet_checkpoint :=
  { frame_id := cn_bump_get_frame_id g
    alloc := bennet_alloc_save g
    ownership := bennet_ownership_save g }

/-- The function `bennet_checkpoint_restore` of `checkpoint.h`. -/
def bennet_checkpoint_restore (cp : bennet_checkpoint) (g : Generator) : Generator :=
  bennet_ownership_restore cp.ownership
    (bennet_alloc_restore cp.alloc (cn_bump_free_after cp.frame_id g))

/-- What the generator does between a save and a restore: a scratch allocation, a record in the
allocation ledger, an ownership record, or a call of the random allocator. -/
inductive Activity where
  | scratch (a : Nat)
  | alloc_record (a : Nat)
  | ownership_record (a : Nat)
  | rand_call (c : Call)
deriving DecidableEq, Repr

/-- Modelled from the spec: the effect of one activity; scratch allocations and records are
pushed on their stacks, a call of the random allocator acts on the allocator state alone. -/
def act (E : Env) : Activity → Generator → Generator
  | .scratch a, g => { g with bump := g.bump ++ [a] }
  | .alloc_record a, g => { g with alloc_ledger := g.alloc_ledger ++ [a] }
  | .ownership_record a, g => { g with ownership_ledger := g.ownership_ledger ++ [a] }
  | .rand_call c, g => { g with rand := (call E c g.rand).state }

/-- A sequence of activities. -/
def acts (E : Env) : List Activity → Generator → Generator
  | [], g => g
  | a :: rest, g => acts E rest (act E a g)


end RandAlloc

/-! # The sorted-list fixture (`sorted_list_alt.insert.flaky.c`)

Pointers are addresses, `0` is `NULL`; the heap holds the `struct List` objects that are owned,
and `Owned<struct List*>(xs)` is the cell `xs_cell` with the value of `*xs`. -/

namespace SortedList

/-- The struct `List` of the fixture. -/
structure struct_List where
  value : Int
  next : Nat
deriving DecidableEq, Repr

/-- The datatype `IntList` of the fixture. -/
inductive IntList where
  | Nil
  | Cons (head : Int) (tail : IntList)
deriving DecidableEq, Repr

/-- The function `validCons` of the fixture. -/
def validCons (head : Int) : IntList → Bool
  | .Nil => true
  | .Cons next _ => decide (head ≤ next)

/-- The function `insertList` of the fixture. -/
def insertList (dups : Bool) (x : Int) : IntList → IntList
  | .Nil => .Cons x .Nil
  | .Cons head tail =>
    if head < x then
      .Cons head (insertList dups x tail)
    else
      if !dups && head == x then
        .Cons head tail
      else
        .Cons x (.Cons head tail)

/-- The least `i32`, `MINi32()`. -/
def MINi32 : Int := -2147483648

/-- The value `x` occurs in the list. -/
def occurs (x : Int) : IntList → Prop
  | .Nil => False
  | .Cons head tail => head = x ∨ occurs x tail

/-- The owned `struct List` objects, by address. -/
abbrev Heap := List (Nat × struct_List)

/-- The object owned at address `p`, if any. -/
def load (h : Heap) (p : Nat) : Option struct_List := h.lookup p

/-- The heap without the object at address `p`: its ownership has been taken. -/
def take_owned (h : Heap) (p : Nat) : Heap := h.filter fun e => e.1 != p

/-- The heap with the object at address `p` written. -/
def store (h : Heap) (p : Nat) (v : struct_List) : Heap := (p, v) :: take_owned h p

/-- The predicate `ListSegmentAux` of the fixture, read off the heap: `none` when an object is
not owned or an assertion `prev <= head.value` fails. Each step takes the ownership of one
object, so `fuel` above the size of the heap is never used up. -/
def ListSegmentAux (h : Heap) : Nat → Nat → Nat → Int → Option IntList
  | 0, _, _, _ => none
  | fuel + 1, from_, to_, prev =>
    if from_ = to_ then some .Nil
    else
      match load h from_ with
      | none => none
      | some head =>
        if prev ≤ head.value then
          (ListSegmentAux (take_owned h from_) fuel head.next to_ head.value).map
            (IntList.Cons head.value)
        else none

/-- The predicate `ListSegment` of the fixture. -/
def ListSegment (h : Heap) (from_ to_ : Nat) : Option IntList :=
  ListSegmentAux h (h.length + 1) from_ to_ MINi32

/-- The memory `insert` works on: the value of `*xs` and the owned list objects. -/
structure Memory where
  xs_cell : Nat
  heap : Heap
deriving DecidableEq, Repr

/-- The loop `while (cur && cur->value < x)` of `insert`, giving the final `prev` and `cur`;
`none` when `cur` is not owned or the fuel is used up. -/
def insert_loop (h : Heap) (x : Int) : Nat → Nat → Nat → Option (Nat × Nat)
  | 0, _, _ => none
  | fuel + 1, prev, cur =>
    if cur = 0 then some (prev, cur)
    else
      match load h cur with
      | none => none
      | some c => if c.value < x then insert_loop h x fuel cur c.next else some (prev, cur)

/-- The function `insert` of the fixture; `node` is the address that `cn_malloc` returns for
the new object, whose `next` is 0 until it is assigned. -/
def insert (node : Nat) (x : Int) (m : Memory) : Option Memory :=
  let h1 := store m.heap node { value := x, next := 0 }
  match insert_loop h1 x (h1.length + 1) 0 m.xs_cell with
  | none => none
  | some (prev, cur) =>
    if prev ≠ 0 then
      match load h1 prev with
      | none => none
      | some pn =>
        let h2 := store h1 prev { pn with next := node }
        some { xs_cell := m.xs_cell, heap := store h2 node { value := x, next := cur } }
    else
      some { xs_cell := node, heap := store h1 node { value := x, next := m.xs_cell } }

/-- The list `[1, 2, 3]` at the addresses 16, 32 and 48, with `*xs = 16`. -/
def memory_123 : Memory :=
  { xs_cell := 16
    heap := [(16, { value := 1, next := 32 }), (32, { value := 2, next := 48 }),
      (48, { value := 3, next := 0 })] }

/-- The list `[1]` at the address 16, with `*xs = 16`. -/
def memory_1 : Memory :=
  { xs_cell := 16, heap := [(16, { value := 1, next := 0 })] }

end SortedList

namespace RandAlloc


/-! ## Theorems -/

/-! ### Machine arithmetic -/

theorem SZ_eq : SZ = 18446744073709551616 := by decide

theorem wadd_lt (a b : Nat) : wadd a b < SZ := Nat.mod_lt _ (by decide)

theorem wsub_lt (a b : Nat) : wsub a b < SZ := Nat.mod_lt _ (by decide)

theorem wadd_eq (a b : Nat) (h : a + b < SZ) : wadd a b = a + b := Nat.mod_eq_of_lt h

theorem wsub_eq (a b : Nat) (ha : a < SZ) (hb : b ≤ a) : wsub a b = a - b := by
  unfold wsub
  rw [Nat.mod_eq_of_lt ha, Nat.mod_eq_of_lt (lt_of_le_of_lt hb ha)]
  have h1 : a + (SZ - b) = (a - b) + SZ := by omega
  rw [h1, Nat.add_mod_right]
  exact Nat.mod_eq_of_lt (by omega)

/-- Clearing the low `k` bits of a 64-bit value with the mask `2 ^ 64 - 2 ^ k`. -/
theorem land_high_mask (y k : Nat) (hy : y < 2 ^ 64) (hk : k ≤ 64) :
    y &&& (2 ^ 64 - 2 ^ k) = 2 ^ k * (y / 2 ^ k) := by
  apply Nat.eq_of_testBit_eq
  intro i
  have hpos : 0 < 2 ^ k := Nat.two_pow_pos k
  have hle : 2 ^ k ≤ 2 ^ 64 := Nat.pow_le_pow_right (by decide) hk
  have hmask : 2 ^ 64 - 2 ^ k = 2 ^ 64 - ((2 ^ k - 1) + 1) := by omega
  rw [Nat.testBit_and, hmask, Nat.testBit_two_pow_sub_succ (by omega), Nat.testBit_two_pow_sub_one,
    Nat.testBit_mul_pow_two, ← Nat.shiftRight_eq_div_pow, Nat.testBit_shiftRight]
  by_cases hik : i < k
  · have : ¬ i ≥ k := by omega
    simp [hik, this]
  · have hge : i ≥ k := by omega
    have hki : k + (i - k) = i := by omega
    rw [hki]
    by_cases hi : i < 64
    · simp [hik, hge, hi]
    · have hy2 : y < 2 ^ i := lt_of_lt_of_le hy (Nat.pow_le_pow_right (by decide) (by omega))
      simp [Nat.testBit_lt_two_pow hy2]

/-- With a power-of-two alignment the rounding of the bounded loop is the floor multiple of the
alignment under the bumped offset. -/
theorem align_up_eq (raw k : Nat) (hk : k < 64) :
    align_up raw (2 ^ k) = 2 ^ k * (wadd raw (2 ^ k - 1) / 2 ^ k) := by
  have hpos : 0 < 2 ^ k := Nat.two_pow_pos k
  have hlt : 2 ^ k < SZ := Nat.pow_lt_pow_right (by decide) hk
  have h1 : wsub (2 ^ k) 1 = 2 ^ k - 1 := wsub_eq _ _ hlt hpos
  have h2 : wnot (2 ^ k - 1) = 2 ^ 64 - 2 ^ k := by
    unfold wnot
    rw [Nat.mod_eq_of_lt (by omega)]
    have : SZ = 2 ^ 64 := rfl
    omega
  unfold align_up
  rw [h1, h2]
  exact land_high_mask _ k (wadd_lt _ _) (le_of_lt hk)

theorem align_up_dvd (raw k : Nat) (hk : k < 64) : 2 ^ k ∣ align_up raw (2 ^ k) := by
  rw [align_up_eq raw k hk]
  exact Dvd.intro _ rfl

theorem align_up_lt (raw al : Nat) : align_up raw al < SZ :=
  lt_of_le_of_lt Nat.and_le_left (wadd_lt _ _)

/-! ### The retry loops -/

theorem add_draws_drawn (s : State) (j : Nat) : add_draws (drawn s) j = add_draws s (j + 1) := by
  simp only [add_draws, drawn, State.mk.injEq, true_and, and_true]
  omega

/-- The bounded loop either uses up its `n` attempts and reports the failure, or it succeeds
at some attempt `j < n` with a candidate that passed the bounds re-check and the overlap check. -/
theorem bounded_loop_cases (E : Env) (cs : bennet_domain) (bytes lo hi rg : Nat) :
    ∀ (n : Nat) (s : State),
      bennet_rand_alloc_bounded_loop E cs bytes lo hi rg n s
          = .returned 0 (cn_failure .CN_FAILURE_ALLOC .NON_SPEC (add_draws s n)) ∨
      ∃ j, j < n ∧
        ¬ out_of_bounds bytes lo hi (candidate E cs lo rg (add_draws s j)) ∧
        overlaps s.global_rand_alloc.regions (candidate E cs lo rg (add_draws s j)) bytes
          = false ∧
        bennet_rand_alloc_bounded_loop E cs bytes lo hi rg n s
          = .returned (wadd s.global_rand_alloc.buffer (candidate E cs lo rg (add_draws s j)))
              (push_region (add_draws s (j + 1)) (candidate E cs lo rg (add_draws s j)) bytes) := by
  intro n
  induction n with
  | zero => intro s; left; rfl
  | succ n ih =>
    intro s
    have hstep := ih (drawn s)
    simp only [add_draws_drawn] at hstep
    by_cases hb : out_of_bounds bytes lo hi (candidate E cs lo rg s)
    · have hrw : bennet_rand_alloc_bounded_loop E cs bytes lo hi rg (n + 1) s
          = bennet_rand_alloc_bounded_loop E cs bytes lo hi rg n (drawn s) := by
        simp only [bennet_rand_alloc_bounded_loop]
        exact if_pos hb
      rw [hrw]
      rcases hstep with h | ⟨j, hj, h1, h2, h3⟩
      · left; exact h
      · right; exact ⟨j + 1, by omega, h1, h2, h3⟩
    · by_cases ho : overlaps s.global_rand_alloc.regions (candidate E cs lo rg s) bytes = false
      · right
        refine ⟨0, by omega, hb, ho, ?_⟩
        simp only [bennet_rand_alloc_bounded_loop]
        exact (if_neg hb).trans (if_pos ho)
      · have hrw : bennet_rand_alloc_bounded_loop E cs bytes lo hi rg (n + 1) s
            = bennet_rand_alloc_bounded_loop E cs bytes lo hi rg n (drawn s) := by
          simp only [bennet_rand_alloc_bounded_loop]
          exact (if_neg hb).trans (if_neg ho)
        rw [hrw]
        rcases hstep with h | ⟨j, hj, h1, h2, h3⟩
        · left; exact h
        · right; exact ⟨j + 1, by omega, h1, h2, h3⟩

/-- The loop of `bennet_rand_alloc` either uses up its `n` attempts and reports the failure, or
it succeeds at some attempt `j < n` with a drawn offset that passed the overlap check. -/
theorem alloc_loop_cases (E : Env) (length : Nat) :
    ∀ (n : Nat) (s : State),
      bennet_rand_alloc_loop E length n s
          = .returned 0 (cn_failure .CN_FAILURE_ALLOC .NON_SPEC (add_draws s n)) ∨
      ∃ j, j < n ∧
        overlaps s.global_rand_alloc.regions (drawn_offset E length (add_draws s j)) length
          = false ∧
        bennet_rand_alloc_loop E length n s
          = .returned (wadd s.global_rand_alloc.buffer (drawn_offset E length (add_draws s j)))
              (push_region (add_draws s (j + 1)) (drawn_offset E length (add_draws s j))
                length) := by
  intro n
  induction n with
  | zero => intro s; left; rfl
  | succ n ih =>
    intro s
    have hstep := ih (drawn s)
    simp only [add_draws_drawn] at hstep
    by_cases ho : overlaps s.global_rand_alloc.regions (drawn_offset E length s) length = false
    · right
      refine ⟨0, by omega, ho, ?_⟩
      simp only [bennet_rand_alloc_loop]
      exact if_pos ho
    · have hrw : bennet_rand_alloc_loop E length (n + 1) s
          = bennet_rand_alloc_loop E length n (drawn s) := by
        simp only [bennet_rand_alloc_loop]
        exact if_neg ho
      rw [hrw]
      rcases hstep with h | ⟨j, hj, h1, h2⟩
      · left; exact h
      · right; exact ⟨j + 1, by omega, h1, h2⟩

/-- How `bennet_rand_alloc_bounded` unfolds once both assertions hold and the domain is wide
enough: it is its retry loop, run on the initialised state. -/
theorem bounded_eq_loop (E : Env) (cs : bennet_domain) (s : State)
    (hb : footprint cs ≠ 0)
    (hlh : resolved_low (arena E s) cs ≤ resolved_high (arena E s) cs)
    (hchk : ¬ (max_offset (arena E s) cs < min_offset (arena E s) cs ∨
      available_bytes (arena E s) cs < footprint cs)) :
    bennet_rand_alloc_bounded E cs s
      = bennet_rand_alloc_bounded_loop E cs (footprint cs) (min_offset (arena E s) cs)
          (max_offset (arena E s) cs) (range (arena E s) cs) max_attempts (init_state E s) := by
  unfold bennet_rand_alloc_bounded
  simp only []
  rw [if_neg hb]
  exact (if_neg (not_not.mpr hlh)).trans (if_neg hchk)

/-- The bounded allocation fails at the availability check when the guard fires. -/
theorem bounded_eq_failure (E : Env) (cs : bennet_domain) (s : State)
    (hb : footprint cs ≠ 0)
    (hlh : resolved_low (arena E s) cs ≤ resolved_high (arena E s) cs)
    (hchk : max_offset (arena E s) cs < min_offset (arena E s) cs ∨
      available_bytes (arena E s) cs < footprint cs) :
    bennet_rand_alloc_bounded E cs s
      = .returned 0 (cn_failure .CN_FAILURE_ALLOC .NON_SPEC (init_state E s)) := by
  unfold bennet_rand_alloc_bounded
  simp only []
  rw [if_neg hb]
  exact (if_neg (not_not.mpr hlh)).trans (if_pos hchk)

/-- The bounded allocation halts when an assertion fails. -/
theorem bounded_eq_halted (E : Env) (cs : bennet_domain) (s : State)
    (h : footprint cs = 0 ∨ resolved_high (arena E s) cs < resolved_low (arena E s) cs) :
    bennet_rand_alloc_bounded E cs s = .halted (init_state E s) := by
  unfold bennet_rand_alloc_bounded
  simp only []
  by_cases hb : footprint cs = 0
  · rw [if_pos hb]
  · rw [if_neg hb]
    rcases h with h | h
    · exact absurd h hb
    · exact if_pos (not_le.mpr h)

/-- A non-null result of `bennet_rand_alloc_bounded` comes from an attempt `j` of the loop whose
candidate passed both checks; the result is the arena base plus the candidate and the new state
is the initialised state with `j + 1` draws made and the candidate region pushed. -/
theorem bounded_returned (E : Env) (cs : bennet_domain) (s : State) (p : Nat) (t : State)
    (hret : bennet_rand_alloc_bounded E cs s = .returned p t) (hp : p ≠ 0) :
    ∃ j al, j < max_attempts ∧
      al = candidate E cs (min_offset (arena E s) cs) (range (arena E s) cs)
        (add_draws (init_state E s) j) ∧
      footprint cs ≠ 0 ∧
      resolved_low (arena E s) cs ≤ resolved_high (arena E s) cs ∧
      min_offset (arena E s) cs ≤ max_offset (arena E s) cs ∧
      footprint cs ≤ available_bytes (arena E s) cs ∧
      ¬ out_of_bounds (footprint cs) (min_offset (arena E s) cs) (max_offset (arena E s) cs) al ∧
      overlaps (arena E s).regions al (footprint cs) = false ∧
      p = wadd (arena E s).buffer al ∧
      t = push_region (add_draws (init_state E s) (j + 1)) al (footprint cs) := by
  by_cases hhalt : footprint cs = 0 ∨
      resolved_high (arena E s) cs < resolved_low (arena E s) cs
  · rw [bounded_eq_halted E cs s hhalt] at hret
    exact Outcome.noConfusion hret
  · have hb : footprint cs ≠ 0 := fun h => hhalt (Or.inl h)
    have hlh : resolved_low (arena E s) cs ≤ resolved_high (arena E s) cs :=
      not_lt.mp (fun h => hhalt (Or.inr h))
    by_cases hchk : max_offset (arena E s) cs < min_offset (arena E s) cs ∨
        available_bytes (arena E s) cs < footprint cs
    · rw [bounded_eq_failure E cs s hb hlh hchk] at hret
      injection hret with h1 h2
      exact absurd h1.symm hp
    · rw [bounded_eq_loop E cs s hb hlh hchk] at hret
      rcases bounded_loop_cases E cs (footprint cs) (min_offset (arena E s) cs)
          (max_offset (arena E s) cs) (range (arena E s) cs) max_attempts (init_state E s)
        with h | ⟨j, hj, h1, h2, h3⟩
      · rw [h] at hret
        injection hret with h1 h2
        exact absurd h1.symm hp
      · rw [h3] at hret
        injection hret with h4 h5
        refine ⟨j, _, hj, rfl, hb, hlh, ?_, ?_, h1, h2, h4.symm, h5.symm⟩
        · exact not_lt.mp (fun h => hchk (Or.inl h))
        · exact not_lt.mp (fun h => hchk (Or.inr h))

/-! ### Alignment of the bounded allocation -/

theorem env_of_in_range (v : Nat) : RandInRange (env_of v).rnd :=
  fun _ _ hn => Nat.mod_lt _ hn

/-- The offset of a non-null result of the bounded allocation from the arena base is a multiple
of a power-of-two alignment, also when the pointer addition wraps. -/
theorem bounded_result_sub_base_dvd (E : Env) (cs : bennet_domain) (s : State) (p : Nat)
    (t : State) (k : Nat) (hk : k < 64) (hA : alignment E cs = 2 ^ k)
    (hret : bennet_rand_alloc_bounded E cs s = .returned p t) (hp : p ≠ 0) :
    ((2 ^ k : Nat) : Int) ∣ (p : Int) - ((arena E s).buffer : Int) := by
  obtain ⟨j, al, -, hal, -, -, -, -, -, -, hpeq, -⟩ := bounded_returned E cs s p t hret hp
  have hdvd : 2 ^ k ∣ al := by
    rw [hal, candidate, hA]
    exact align_up_dvd _ k hk
  have hSZ : 2 ^ k ∣ SZ := pow_dvd_pow 2 (le_of_lt hk)
  have hdm := Nat.div_add_mod ((arena E s).buffer + al) SZ
  have hpm : ((arena E s).buffer + al) % SZ = p := hpeq.symm
  rw [hpm] at hdm
  generalize ((arena E s).buffer + al) / SZ = q at hdm
  have hz : (p : Int) - ((arena E s).buffer : Int) = (al : Int) - (SZ : Int) * (q : Int) := by
    zify at hdm
    linarith
  rw [hz]
  exact dvd_sub (Int.natCast_dvd_natCast.mpr hdvd)
    (dvd_mul_of_dvd_left (Int.natCast_dvd_natCast.mpr hSZ) _)

/-- C4: for every domain whose alignment (`multiple` if present, else the platform maximum
alignment) is a power of two, every allocator state and every random source, a non-null result
`p` of `bennet_rand_alloc_bounded` satisfies `(p - arena_base) mod alignment = 0`. -/
theorem bounded_alloc_aligned_to_arena_base (E : Env) (cs : bennet_domain) (s : State)
    (p : Nat) (t : State) (k : Nat) (hk : k < 64) (hA : alignment E cs = 2 ^ k)
    (hret : bennet_rand_alloc_bounded E cs s = .returned p t) (hp : p ≠ 0) :
    ((p : Int) - ((arena E s).buffer : Int)) % ((alignment E cs : Nat) : Int) = 0 := by
  rw [hA]
  exact Int.emod_eq_zero_of_dvd (bounded_result_sub_base_dvd E cs s p t k hk hA hret hp)

/-- C4 at the scenario of the specification: with the random source answering 0 the call returns
`base + 104`, and its offset from the arena base is a multiple of 8. -/
theorem bounded_alloc_aligned_to_arena_base_witness :
    (3 < 64 ∧ alignment (env_of 0) scenario_domain = 2 ^ 3 ∧
      bennet_rand_alloc_bounded (env_of 0) scenario_domain initial_state
        = .returned (heap_base + 104) scenario_state ∧
      heap_base + 104 ≠ 0) ∧
    (((heap_base + 104 : Nat) : Int) - ((arena (env_of 0) initial_state).buffer : Int))
      % ((alignment (env_of 0) scenario_domain : Nat) : Int) = 0 :=
  ⟨⟨by decide, by decide, by decide, by decide⟩,
    bounded_alloc_aligned_to_arena_base (env_of 0) scenario_domain initial_state
      (heap_base + 104) scenario_state 3 (by decide) (by decide) (by decide) (by decide)⟩

/-- C3, counterexample: in the scenario of the specification (lower bound `base + 100`, upper
bound `base + 199`, footprint 20, multiple 8) the call returns `base + 104`, whose distance 4
from the resolved lower bound is not a multiple of the alignment 8. -/
theorem bounded_alloc_not_aligned_to_low :
    footprint scenario_domain = 20 ∧
    resolved_low (arena (env_of 0) initial_state) scenario_domain = heap_base + 100 ∧
    resolved_high (arena (env_of 0) initial_state) scenario_domain = heap_base + 199 ∧
    alignment (env_of 0) scenario_domain = 2 ^ 3 ∧
    bennet_rand_alloc_bounded (env_of 0) scenario_domain initial_state
        = .returned (heap_base + 104) scenario_state ∧
    heap_base + 104 ≠ 0 ∧
    (((heap_base + 104 : Nat) : Int)
        - ((resolved_low (arena (env_of 0) initial_state) scenario_domain : Nat) : Int))
      % ((alignment (env_of 0) scenario_domain : Nat) : Int) = 4 :=
  ⟨by decide, by decide, by decide, by decide, by decide, by decide, by decide⟩

/-- C3, amended: for every domain whose alignment is a power of two, a non-null result `p` of
`bennet_rand_alloc_bounded` is aligned relative to the resolved lower bound exactly when the
lower bound itself is aligned relative to the arena base: `(p - low) mod alignment = 0` if and
only if `(low - arena_base) mod alignment = 0`. -/
theorem bounded_alloc_aligned_to_low_iff (E : Env) (cs : bennet_domain) (s : State)
    (p : Nat) (t : State) (k : Nat) (hk : k < 64) (hA : alignment E cs = 2 ^ k)
    (hret : bennet_rand_alloc_bounded E cs s = .returned p t) (hp : p ≠ 0) :
    ((p : Int) - ((resolved_low (arena E s) cs : Nat) : Int)) % ((alignment E cs : Nat) : Int) = 0
      ↔ (((resolved_low (arena E s) cs : Nat) : Int) - ((arena E s).buffer : Int))
          % ((alignment E cs : Nat) : Int) = 0 := by
  have hd := bounded_result_sub_base_dvd E cs s p t k hk hA hret hp
  rw [hA]
  constructor
  · intro h
    have h1 := Int.dvd_of_emod_eq_zero h
    have h2 := dvd_sub hd h1
    have h3 : (p : Int) - ((arena E s).buffer : Int)
        - ((p : Int) - ((resolved_low (arena E s) cs : Nat) : Int))
        = ((resolved_low (arena E s) cs : Nat) : Int) - ((arena E s).buffer : Int) := by ring
    rw [h3] at h2
    exact Int.emod_eq_zero_of_dvd h2
  · intro h
    have h1 := Int.dvd_of_emod_eq_zero h
    have h2 := dvd_sub hd h1
    have h3 : (p : Int) - ((arena E s).buffer : Int)
        - (((resolved_low (arena E s) cs : Nat) : Int) - ((arena E s).buffer : Int))
        = (p : Int) - ((resolved_low (arena E s) cs : Nat) : Int) := by ring
    rw [h3] at h2
    exact Int.emod_eq_zero_of_dvd h2

/-- C3 amended, at a domain whose lower bound `base + 96` is aligned: the call returns
`base + 104`, and both sides of the equivalence hold there. -/
theorem bounded_alloc_aligned_to_low_iff_witness :
    (3 < 64 ∧ alignment (env_of 5) aligned_domain = 2 ^ 3 ∧
      bennet_rand_alloc_bounded (env_of 5) aligned_domain initial_state
        = .returned (heap_base + 104) aligned_state ∧
      heap_base + 104 ≠ 0) ∧
    ((((heap_base + 104 : Nat) : Int)
          - ((resolved_low (arena (env_of 5) initial_state) aligned_domain : Nat) : Int))
        % ((alignment (env_of 5) aligned_domain : Nat) : Int) = 0
      ↔ (((resolved_low (arena (env_of 5) initial_state) aligned_domain : Nat) : Int)
          - ((arena (env_of 5) initial_state).buffer : Int))
        % ((alignment (env_of 5) aligned_domain : Nat) : Int) = 0) :=
  ⟨⟨by decide, by decide, by decide, by decide⟩,
    bounded_alloc_aligned_to_low_iff (env_of 5) aligned_domain initial_state
      (heap_base + 104) aligned_state 3 (by decide) (by decide) (by decide) (by decide)⟩

/-! ### Unconstrained allocation -/

theorem init_state_draws (E : Env) (s : State) : (init_state E s).draws = s.draws := rfl

theorem init_state_failures (E : Env) (s : State) : (init_state E s).failures = s.failures := rfl

theorem init_state_of_initialised (E : Env) (s : State)
    (h : s.global_rand_alloc.buffer ≠ 0) : init_state E s = s := by
  unfold init_state bennet_rand_alloc_init
  rw [if_pos h]

/-- The offset drawn by `bennet_rand_alloc` lies in `[0, arena_len - length]` when the random
source keeps its contract. -/
theorem drawn_offset_le (E : Env) (hR : RandInRange E.rnd) (length : Nat) (s : State)
    (hlen : s.global_rand_alloc.buffer_len < SZ) (hl : length ≤ s.global_rand_alloc.buffer_len)
    (h0 : 0 < length) :
    drawn_offset E length s ≤ s.global_rand_alloc.buffer_len - length := by
  have e1 : wsub s.global_rand_alloc.buffer_len length
      = s.global_rand_alloc.buffer_len - length := wsub_eq _ _ hlen hl
  have e2 : wadd (s.global_rand_alloc.buffer_len - length) 1
      = s.global_rand_alloc.buffer_len - length + 1 := wadd_eq _ _ (by omega)
  have e3 : (s.global_rand_alloc.buffer_len - length + 1) % SZ
      = s.global_rand_alloc.buffer_len - length + 1 := Nat.mod_eq_of_lt (by omega)
  unfold drawn_offset bennet_uniform_uint64_t
  rw [e1, e2, e3]
  have h1 := hR s.draws (s.global_rand_alloc.buffer_len - length + 1) (by omega)
  have h2 := Nat.mod_le (E.rnd s.draws (s.global_rand_alloc.buffer_len - length + 1)) SZ
  omega

/-- The bounded loop started with at least one attempt always draws from the random source. -/
theorem bounded_loop_draws (E : Env) (cs : bennet_domain) (bytes lo hi rg n : Nat) (s : State) :
    ∃ p t, bennet_rand_alloc_bounded_loop E cs bytes lo hi rg (n + 1) s = .returned p t ∧
      s.draws < t.draws ∧ t.draws ≤ s.draws + (n + 1) := by
  rcases bounded_loop_cases E cs bytes lo hi rg (n + 1) s with h | ⟨j, hj, -, -, h3⟩
  · refine ⟨_, _, h, ?_, ?_⟩
    · show s.draws < s.draws + (n + 1)
      omega
    · exact le_refl _
  · refine ⟨_, _, h3, ?_, ?_⟩
    · show s.draws < s.draws + (j + 1)
      omega
    · show s.draws + (j + 1) ≤ s.draws + (n + 1)
      omega

/-- C10: `bennet_rand_alloc_bounded` halts on an assertion if and only if the computed footprint
`lower_offset_bound + upper_offset_bound` is zero or the resolved `low` is greater than the
resolved `high`; the state at the halt is the state after the lazy initialisation, so no random
value was drawn, no failure was reported and no region was inserted. -/
theorem bounded_alloc_halts_iff (E : Env) (cs : bennet_domain) (s : State) :
    ((∃ t, bennet_rand_alloc_bounded E cs s = .halted t) ↔
      (footprint cs = 0 ∨ resolved_high (arena E s) cs < resolved_low (arena E s) cs)) ∧
    (∀ t, bennet_rand_alloc_bounded E cs s = .halted t →
      t = init_state E s ∧ t.draws = s.draws ∧ t.failures = s.failures ∧
      t.global_rand_alloc.regions = (arena E s).regions) := by
  by_cases hhalt : footprint cs = 0 ∨
      resolved_high (arena E s) cs < resolved_low (arena E s) cs
  · have hh := bounded_eq_halted E cs s hhalt
    refine ⟨⟨fun _ => hhalt, fun _ => ⟨_, hh⟩⟩, ?_⟩
    intro t ht
    rw [hh] at ht
    injection ht with ht
    subst ht
    exact ⟨rfl, rfl, rfl, rfl⟩
  · have hb : footprint cs ≠ 0 := fun h => hhalt (Or.inl h)
    have hlh : resolved_low (arena E s) cs ≤ resolved_high (arena E s) cs :=
      not_lt.mp (fun h => hhalt (Or.inr h))
    have hne : ∀ t, bennet_rand_alloc_bounded E cs s ≠ .halted t := by
      intro t ht
      by_cases hchk : max_offset (arena E s) cs < min_offset (arena E s) cs ∨
          available_bytes (arena E s) cs < footprint cs
      · rw [bounded_eq_failure E cs s hb hlh hchk] at ht
        exact Outcome.noConfusion ht
      · rw [bounded_eq_loop E cs s hb hlh hchk] at ht
        obtain ⟨p, u, hpu, -, -⟩ := bounded_loop_draws E cs (footprint cs)
          (min_offset (arena E s) cs) (max_offset (arena E s) cs) (range (arena E s) cs) 99
          (init_state E s)
        have h100 : max_attempts = 99 + 1 := rfl
        rw [h100, hpu] at ht
        exact Outcome.noConfusion ht
    refine ⟨⟨fun ⟨t, ht⟩ => absurd ht (hne t), fun h => absurd h hhalt⟩, ?_⟩
    intro t ht
    exact absurd ht (hne t)

/-- C5, failing input: for the domain with no lower bound and the upper bound 4096 bytes past
the end of the arena (footprint 20), with the random source answering `2 ^ 24`, the call returns
the non-null address `base + 2 ^ 24` and makes `[2 ^ 24, 2 ^ 24 + 20)` a live region, while
`bennet_rand_alloc_max_ptr()` is `base + 2 ^ 24 - 1`: the whole region lies past the arena. -/
theorem bounded_alloc_leaves_arena :
    footprint overhanging_domain = 20 ∧
    resolved_low (arena (env_of 16777216) initial_state) overhanging_domain
      ≤ resolved_high (arena (env_of 16777216) initial_state) overhanging_domain ∧
    bennet_rand_alloc_bounded (env_of 16777216) overhanging_domain initial_state
      = .returned (heap_base + 16777216)
          (example_state [{ offset := 16777216, length := 20 }] 1 []) ∧
    bennet_rand_alloc_min_ptr (env_of 16777216) initial_state
      = .returned heap_base (example_state [] 0 []) ∧
    bennet_rand_alloc_max_ptr (env_of 16777216) initial_state
      = .returned (heap_base + 16777215) (example_state [] 0 []) ∧
    ¬ (heap_base + 16777216 + footprint overhanging_domain - 1 ≤ heap_base + 16777215) ∧
    ¬ (heap_base + 16777216 ≤ heap_base + 16777215) :=
  ⟨by decide, by decide, by decide, by decide, by decide, by decide, by decide⟩

/-- C2, failing input: for the domain `[base - 100, base - 1]` with footprint 10 and multiple 8,
with the random source answering 90, the call returns the non-null address `a = base - 8`, and
`a + footprint - 1 = base + 1` is above `high = base - 1`: the sum `aligned_offset + bytes - 1`
of the bounds re-check wrapped around `2 ^ 64`. -/
theorem bounded_alloc_exceeds_high :
    footprint below_domain_eight = 10 ∧
    resolved_low (arena (env_of 90) initial_state) below_domain_eight = heap_base - 100 ∧
    resolved_high (arena (env_of 90) initial_state) below_domain_eight = heap_base - 1 ∧
    heap_base - 100 ≤ heap_base - 1 ∧
    min_offset (arena (env_of 90) initial_state) below_domain_eight = 2 ^ 64 - 100 ∧
    max_offset (arena (env_of 90) initial_state) below_domain_eight = 2 ^ 64 - 1 ∧
    range (arena (env_of 90) initial_state) below_domain_eight = 91 ∧
    candidate (env_of 90) below_domain_eight
      (min_offset (arena (env_of 90) initial_state) below_domain_eight)
      (range (arena (env_of 90) initial_state) below_domain_eight)
      (init_state (env_of 90) initial_state) = 2 ^ 64 - 8 ∧
    wsub (wadd (2 ^ 64 - 8) 10) 1 = 1 ∧
    bennet_rand_alloc_bounded (env_of 90) below_domain_eight initial_state
      = .returned (heap_base - 8)
          (example_state [{ offset := 2 ^ 64 - 8, length := 10 }] 1 []) ∧
    heap_base - 8 ≠ 0 ∧
    ¬ (heap_base - 8 + footprint below_domain_eight - 1 ≤ heap_base - 1) :=
  ⟨by decide, by decide, by decide, by decide, by decide, by decide, by decide, by decide,
    by decide, by decide, by decide, by decide⟩

/-- C1, failing input: two calls of `bennet_rand_alloc_bounded` on the empty table with the
domain `[base - 100, base - 1]` and footprint 100, the random source answering 0. Both calls
return `base - 100`, and the table then holds the region `{2 ^ 64 - 100, 100}` twice: the end
`offset + length` computed by `overlaps` wrapped to 0, so the second candidate passed. -/
theorem bounded_alloc_twice_same_region :
    footprint below_domain_full = 100 ∧
    resolved_low (arena (env_of 0) initial_state) below_domain_full
      ≤ resolved_high (arena (env_of 0) initial_state) below_domain_full ∧
    min_offset (arena (env_of 0) initial_state) below_domain_full = 2 ^ 64 - 100 ∧
    max_offset (arena (env_of 0) initial_state) below_domain_full = 2 ^ 64 - 1 ∧
    range (arena (env_of 0) initial_state) below_domain_full = 1 ∧
    bennet_rand_alloc_bounded (env_of 0) below_domain_full initial_state
      = .returned (heap_base - 100)
          (example_state [{ offset := 2 ^ 64 - 100, length := 100 }] 1 []) ∧
    overlaps [{ offset := 2 ^ 64 - 100, length := 100 }] (2 ^ 64 - 100) 100 = false ∧
    run (env_of 0) [.alloc_bounded below_domain_full, .alloc_bounded below_domain_full]
        initial_state
      = .returned (heap_base - 100)
          (example_state [{ offset := 2 ^ 64 - 100, length := 100 },
            { offset := 2 ^ 64 - 100, length := 100 }] 2 []) ∧
    ¬ NoOverlap [{ offset := 2 ^ 64 - 100, length := 100 },
      { offset := 2 ^ 64 - 100, length := 100 }] :=
  ⟨by decide, by decide, by decide, by decide, by decide, by decide, by decide, by decide,
    by decide⟩

/-- C8, failing input: after one allocation of all 100 bytes of the domain
`[base - 100, base - 1]`, no byte of the domain is free, and a call for a footprint of 10 in
the same domain still returns the non-null address `base - 100` with one draw and no failure
report, pushing a second region over the first: `overlaps` compared the candidate with the
wrapped end 0 of the live region. -/
theorem bounded_alloc_succeeds_in_full_domain :
    run (env_of 0) [.alloc_bounded below_domain_full] initial_state
      = .returned (heap_base - 100)
          (example_state [{ offset := 2 ^ 64 - 100, length := 100 }] 1 []) ∧
    footprint below_domain_small = 10 ∧
    min_offset (arena (env_of 0) (example_state [{ offset := 2 ^ 64 - 100, length := 100 }] 1 []))
      below_domain_small = 2 ^ 64 - 100 ∧
    max_offset (arena (env_of 0) (example_state [{ offset := 2 ^ 64 - 100, length := 100 }] 1 []))
      below_domain_small = 2 ^ 64 - 1 ∧
    free_bytes [{ offset := 2 ^ 64 - 100, length := 100 }] (2 ^ 64 - 100) (2 ^ 64 - 1) = 0 ∧
    bennet_rand_alloc_bounded (env_of 0) below_domain_small
        (example_state [{ offset := 2 ^ 64 - 100, length := 100 }] 1 [])
      = .returned (heap_base - 100)
          (example_state [{ offset := 2 ^ 64 - 100, length := 100 },
            { offset := 2 ^ 64 - 100, length := 10 }] 2 []) :=
  ⟨by decide, by decide, by decide, by decide, by decide, by decide⟩

/-! ### Domains inside the arena -/

/-- Every call of `bennet_rand_alloc_bounded` ends, halted or returned, after at most 100 draws
from the random source: an attempt discarded by the bounds re-check uses up one of the 100
attempts like an attempt rejected by the overlap check. -/
theorem bounded_alloc_draws_le (E : Env) (cs : bennet_domain) (s : State) :
    s.draws ≤ (bennet_rand_alloc_bounded E cs s).state.draws ∧
    (bennet_rand_alloc_bounded E cs s).state.draws ≤ s.draws + 100 := by
  by_cases hhalt : footprint cs = 0 ∨
      resolved_high (arena E s) cs < resolved_low (arena E s) cs
  · rw [bounded_eq_halted E cs s hhalt]
    exact ⟨le_refl _, Nat.le_add_right _ _⟩
  · have hb : footprint cs ≠ 0 := fun h => hhalt (Or.inl h)
    have hlh : resolved_low (arena E s) cs ≤ resolved_high (arena E s) cs :=
      not_lt.mp (fun h => hhalt (Or.inr h))
    by_cases hchk : max_offset (arena E s) cs < min_offset (arena E s) cs ∨
        available_bytes (arena E s) cs < footprint cs
    · rw [bounded_eq_failure E cs s hb hlh hchk]
      exact ⟨le_refl _, Nat.le_add_right _ _⟩
    · rw [bounded_eq_loop E cs s hb hlh hchk]
      obtain ⟨p, u, hpu, h1, h2⟩ := bounded_loop_draws E cs (footprint cs)
        (min_offset (arena E s) cs) (max_offset (arena E s) cs) (range (arena E s) cs) 99
        (init_state E s)
      have h100 : max_attempts = 99 + 1 := rfl
      rw [h100, hpu]
      exact ⟨le_of_lt h1, h2⟩

/-- The offsets and the candidate of a successful bounded allocation when both bounds of the
domain lie inside the arena: nothing wraps. -/
theorem bounded_in_arena_offsets (E : Env) (cs : bennet_domain) (s : State) (al : Nat)
    (hlen : 2 * (arena E s).buffer_len ≤ SZ)
    (hfit : (arena E s).buffer + (arena E s).buffer_len ≤ SZ)
    (hlow : (arena E s).buffer ≤ resolved_low (arena E s) cs)
    (hhigh : resolved_high (arena E s) cs < (arena E s).buffer + (arena E s).buffer_len)
    (hlh : resolved_low (arena E s) cs ≤ resolved_high (arena E s) cs)
    (hb : footprint cs ≠ 0)
    (hav : footprint cs ≤ available_bytes (arena E s) cs)
    (hchk : ¬ out_of_bounds (footprint cs) (min_offset (arena E s) cs)
      (max_offset (arena E s) cs) al) :
    min_offset (arena E s) cs = resolved_low (arena E s) cs - (arena E s).buffer ∧
    max_offset (arena E s) cs = resolved_high (arena E s) cs - (arena E s).buffer ∧
    min_offset (arena E s) cs ≤ al ∧
    al + footprint cs ≤ max_offset (arena E s) cs + 1 ∧
    wadd al (footprint cs) = al + footprint cs ∧
    wadd (arena E s).buffer al = (arena E s).buffer + al := by
  have hhi : resolved_high (arena E s) cs < SZ := by omega
  have hlo : resolved_low (arena E s) cs < SZ := by omega
  have hmin : min_offset (arena E s) cs = resolved_low (arena E s) cs - (arena E s).buffer :=
    wsub_eq _ _ hlo hlow
  have hmax : max_offset (arena E s) cs = resolved_high (arena E s) cs - (arena E s).buffer :=
    wsub_eq _ _ hhi (le_trans hlow hlh)
  have havail : available_bytes (arena E s) cs
      = max_offset (arena E s) cs - min_offset (arena E s) cs + 1 := by
    unfold available_bytes
    rw [wsub_eq _ _ (by omega) (by omega), wadd_eq _ _ (by omega)]
  unfold out_of_bounds at hchk
  have h1 : min_offset (arena E s) cs ≤ al := by omega
  have h2 : al ≤ max_offset (arena E s) cs := by omega
  have hsum : al + footprint cs < SZ := by omega
  have hw : wadd al (footprint cs) = al + footprint cs := wadd_eq _ _ hsum
  have h3 : wsub (wadd al (footprint cs)) 1 = al + footprint cs - 1 := by
    rw [hw]
    exact wsub_eq _ _ hsum (by omega)
  rw [h3] at hchk
  refine ⟨hmin, hmax, h1, by omega, hw, wadd_eq _ _ (by omega)⟩

/-- For a domain whose resolved bounds lie inside the arena, a non-null result `p` of
`bennet_rand_alloc_bounded` satisfies `low <= p <= high` and `p + footprint - 1 <= high`, and
the region `[p, p + footprint - 1]` lies within `[min_ptr, max_ptr]`. -/
theorem bounded_alloc_in_arena (E : Env) (cs : bennet_domain) (s : State) (p : Nat) (t : State)
    (hlen : 2 * (arena E s).buffer_len ≤ SZ)
    (hfit : (arena E s).buffer + (arena E s).buffer_len ≤ SZ)
    (hlow : (arena E s).buffer ≤ resolved_low (arena E s) cs)
    (hhigh : resolved_high (arena E s) cs < (arena E s).buffer + (arena E s).buffer_len)
    (hret : bennet_rand_alloc_bounded E cs s = .returned p t) (hp : p ≠ 0) :
    resolved_low (arena E s) cs ≤ p ∧ p ≤ resolved_high (arena E s) cs ∧
    p + footprint cs - 1 ≤ resolved_high (arena E s) cs ∧
    (arena E s).buffer ≤ p ∧
    p + footprint cs - 1 ≤ (arena E s).buffer + (arena E s).buffer_len - 1 := by
  obtain ⟨j, al, -, -, hb, hlh, -, hav, hchk, -, hpeq, -⟩ := bounded_returned E cs s p t hret hp
  obtain ⟨hmin, hmax, h1, h2, -, h4⟩ :=
    bounded_in_arena_offsets E cs s al hlen hfit hlow hhigh hlh hb hav hchk
  rw [h4] at hpeq
  omega

/-! ### The overlap check and the no-overlap invariant inside the arena -/

/-- Without wrap-around of the ends, `overlaps` is false exactly when the candidate is disjoint
from every live region. -/
theorem overlaps_eq_false_iff (regions : List rand_alloc_region) (o l : Nat)
    (h1 : o + l < SZ) (h2 : ∀ r ∈ regions, r.offset + r.length < SZ) :
    overlaps regions o l = false ↔
      ∀ r ∈ regions, o + l ≤ r.offset ∨ r.offset + r.length ≤ o := by
  unfold overlaps
  simp only [List.any_eq_false, Bool.not_eq_true, Bool.not_eq_false_eq_eq_true,
    Bool.or_eq_true, decide_eq_true_eq, ge_iff_le]
  constructor
  · intro h r hr
    have := h r hr
    rw [wadd_eq _ _ h1, wadd_eq _ _ (h2 r hr)] at this
    exact this
  · intro h r hr
    rw [wadd_eq _ _ h1, wadd_eq _ _ (h2 r hr)]
    exact h r hr

theorem RAND_ALLOC_MEM_SIZE_lt : 2 * RAND_ALLOC_MEM_SIZE ≤ SZ := by decide

/-- The address `buffer + buffer_len - 1` of the last byte of an arena that lies in the address
space, as `bennet_rand_alloc_bounded` and `bennet_rand_alloc_max_ptr` compute it. -/
theorem buf_end_eq (b len : Nat) (hfit : b + len ≤ SZ) (hpos : 0 < len) :
    wsub (wadd b len) 1 = b + len - 1 := by
  unfold wadd wsub
  rw [SZ_eq] at *
  omega

/-- The arena after the lazy initialisation of an allocator that satisfies the invariant. -/
theorem arena_of_invariant (E : Env) (s : State) (hI : ArenaInvariant E s.global_rand_alloc) :
    (arena E s).buffer = E.malloc_result ∧ (arena E s).buffer_len = RAND_ALLOC_MEM_SIZE ∧
    ArenaInvariant E (arena E s) := by
  by_cases hb : s.global_rand_alloc.buffer = 0
  · have e : arena E s
        = { buffer := E.malloc_result, buffer_len := RAND_ALLOC_MEM_SIZE, regions := [] } := by
      unfold arena init_state bennet_rand_alloc_init
      exact if_neg (not_not.mpr hb)
    rw [e]
    refine ⟨rfl, rfl, fun _ => ⟨rfl, rfl⟩, ?_, List.Pairwise.nil⟩
    intro r hr
    exact absurd hr (List.not_mem_nil r)
  · have e : arena E s = s.global_rand_alloc := by
      unfold arena init_state bennet_rand_alloc_init
      exact if_pos hb
    rw [e]
    have h := hI.1 hb
    exact ⟨h.1, h.2, hI⟩

/-- Pushing a region that lies inside the arena and is disjoint from every live region keeps the
invariant. -/
theorem invariant_push (E : Env) (s : State) (o l : Nat)
    (hI : ArenaInvariant E s.global_rand_alloc)
    (hin : o + l ≤ RAND_ALLOC_MEM_SIZE)
    (hdis : ∀ r ∈ s.global_rand_alloc.regions, o + l ≤ r.offset ∨ r.offset + r.length ≤ o) :
    ArenaInvariant E (push_region s o l).global_rand_alloc := by
  obtain ⟨h1, h2, h3⟩ := hI
  refine ⟨h1, ?_, ?_⟩
  · intro r hr
    rcases List.mem_append.mp hr with hr | hr
    · exact h2 r hr
    · rw [List.mem_singleton] at hr
      subst hr
      exact hin
  · unfold NoOverlap
    show List.Pairwise _ (s.global_rand_alloc.regions ++ [_])
    rw [List.pairwise_append]
    refine ⟨h3, List.pairwise_singleton _ _, ?_⟩
    intro r hr r2 hr2
    rw [List.mem_singleton] at hr2
    subst hr2
    rcases hdis r hr with h | h
    · exact Or.inr h
    · exact Or.inl h

/-- What a call of `bennet_rand_alloc_bounded` can end in. -/
theorem bounded_cases (E : Env) (cs : bennet_domain) (s : State) :
    bennet_rand_alloc_bounded E cs s = .halted (init_state E s) ∨
    bennet_rand_alloc_bounded E cs s
      = .returned 0 (cn_failure .CN_FAILURE_ALLOC .NON_SPEC (init_state E s)) ∨
    bennet_rand_alloc_bounded E cs s
      = .returned 0 (cn_failure .CN_FAILURE_ALLOC .NON_SPEC
          (add_draws (init_state E s) max_attempts)) ∨
    ∃ j al, j < max_attempts ∧
      al = candidate E cs (min_offset (arena E s) cs) (range (arena E s) cs)
        (add_draws (init_state E s) j) ∧
      footprint cs ≠ 0 ∧
      resolved_low (arena E s) cs ≤ resolved_high (arena E s) cs ∧
      min_offset (arena E s) cs ≤ max_offset (arena E s) cs ∧
      footprint cs ≤ available_bytes (arena E s) cs ∧
      ¬ out_of_bounds (footprint cs) (min_offset (arena E s) cs) (max_offset (arena E s) cs) al ∧
      overlaps (arena E s).regions al (footprint cs) = false ∧
      bennet_rand_alloc_bounded E cs s
        = .returned (wadd (arena E s).buffer al)
            (push_region (add_draws (init_state E s) (j + 1)) al (footprint cs)) := by
  by_cases hhalt : footprint cs = 0 ∨
      resolved_high (arena E s) cs < resolved_low (arena E s) cs
  · exact Or.inl (bounded_eq_halted E cs s hhalt)
  · have hb : footprint cs ≠ 0 := fun h => hhalt (Or.inl h)
    have hlh : resolved_low (arena E s) cs ≤ resolved_high (arena E s) cs :=
      not_lt.mp (fun h => hhalt (Or.inr h))
    by_cases hchk : max_offset (arena E s) cs < min_offset (arena E s) cs ∨
        available_bytes (arena E s) cs < footprint cs
    · exact Or.inr (Or.inl (bounded_eq_failure E cs s hb hlh hchk))
    · rw [bounded_eq_loop E cs s hb hlh hchk]
      rcases bounded_loop_cases E cs (footprint cs) (min_offset (arena E s) cs)
          (max_offset (arena E s) cs) (range (arena E s) cs) max_attempts (init_state E s)
        with h | ⟨j, hj, h1, h2, h3⟩
      · exact Or.inr (Or.inr (Or.inl h))
      · refine Or.inr (Or.inr (Or.inr ⟨j, _, hj, rfl, hb, hlh, ?_, ?_, h1, h2, h3⟩))
        · exact not_lt.mp (fun h => hchk (Or.inl h))
        · exact not_lt.mp (fun h => hchk (Or.inr h))

/-- A call of `bennet_rand_alloc_bounded` with a domain inside the arena keeps the invariant. -/
theorem bounded_keeps_invariant (E : Env) (cs : bennet_domain) (s : State)
    (hM : E.malloc_result + RAND_ALLOC_MEM_SIZE ≤ SZ) (hD : DomainInArena E cs)
    (hI : ArenaInvariant E s.global_rand_alloc) :
    ArenaInvariant E (bennet_rand_alloc_bounded E cs s).state.global_rand_alloc := by
  obtain ⟨hbuf, hlen, hA⟩ := arena_of_invariant E s hI
  rcases bounded_cases E cs s with h | h | h | ⟨j, al, -, -, hb, hlh, -, hav, hchk, hov, h⟩
  · rw [h]; exact hA
  · rw [h]; exact hA
  · rw [h]; exact hA
  · rw [h]
    have hlow : (arena E s).buffer ≤ resolved_low (arena E s) cs := by
      unfold resolved_low
      rw [hbuf]
      exact hD.1
    have hhigh : resolved_high (arena E s) cs < (arena E s).buffer + (arena E s).buffer_len := by
      unfold resolved_high
      rw [hbuf, hlen, buf_end_eq _ _ hM (by decide)]
      exact hD.2
    have hlen2 : 2 * (arena E s).buffer_len ≤ SZ := by rw [hlen]; exact RAND_ALLOC_MEM_SIZE_lt
    have hfit : (arena E s).buffer + (arena E s).buffer_len ≤ SZ := by rw [hbuf, hlen]; exact hM
    obtain ⟨hmin, hmax, h1, h2, h3, -⟩ :=
      bounded_in_arena_offsets E cs s al hlen2 hfit hlow hhigh hlh hb hav hchk
    have hin : al + footprint cs ≤ RAND_ALLOC_MEM_SIZE := by omega
    have hsz := RAND_ALLOC_MEM_SIZE_lt
    have hdis := (overlaps_eq_false_iff (arena E s).regions al (footprint cs) (by omega)
      (fun r hr => by have := hA.2.1 r hr; omega)).mp hov
    exact invariant_push E (add_draws (init_state E s) (j + 1)) al (footprint cs) hA hin hdis

/-- What a call of `bennet_rand_alloc` can end in. -/
theorem alloc_cases (E : Env) (length : Nat) (s : State) :
    bennet_rand_alloc E length s = .returned 0 (init_state E s) ∨
    bennet_rand_alloc E length s
      = .returned 0 (cn_failure .CN_FAILURE_ALLOC .NON_SPEC
          (add_draws (init_state E s) max_attempts)) ∨
    ∃ j o, j < max_attempts ∧
      o = drawn_offset E length (add_draws (init_state E s) j) ∧
      0 < length ∧ length ≤ (arena E s).buffer_len ∧
      overlaps (arena E s).regions o length = false ∧
      bennet_rand_alloc E length s
        = .returned (wadd (arena E s).buffer o)
            (push_region (add_draws (init_state E s) (j + 1)) o length) := by
  by_cases h : length = 0 ∨ length > (init_state E s).global_rand_alloc.buffer_len
  · left
    unfold bennet_rand_alloc
    exact if_pos h
  · have hunf : bennet_rand_alloc E length s
        = bennet_rand_alloc_loop E length max_attempts (init_state E s) := by
      unfold bennet_rand_alloc
      exact if_neg h
    rw [hunf]
    rcases alloc_loop_cases E length max_attempts (init_state E s) with h1 | ⟨j, hj, h2, h3⟩
    · exact Or.inr (Or.inl h1)
    · refine Or.inr (Or.inr ⟨j, _, hj, rfl, ?_, ?_, h2, h3⟩)
      · exact Nat.pos_of_ne_zero (fun h0 => h (Or.inl h0))
      · exact not_lt.mp (fun hgt => h (Or.inr hgt))

/-- A call of `bennet_rand_alloc` keeps the invariant when the random source keeps its
contract. -/
theorem alloc_keeps_invariant (E : Env) (length : Nat) (s : State)
    (hR : RandInRange E.rnd) (hI : ArenaInvariant E s.global_rand_alloc) :
    ArenaInvariant E (bennet_rand_alloc E length s).state.global_rand_alloc := by
  obtain ⟨-, hlen, hA⟩ := arena_of_invariant E s hI
  rcases alloc_cases E length s with h | h | ⟨j, o, -, ho, h0, hl, hov, h⟩
  · rw [h]; exact hA
  · rw [h]; exact hA
  · rw [h]
    have hsz := RAND_ALLOC_MEM_SIZE_lt
    have hle : o ≤ (arena E s).buffer_len - length := by
      rw [ho]
      exact drawn_offset_le E hR length (add_draws (init_state E s) j)
        (by show (arena E s).buffer_len < SZ; omega) hl h0
    have hin : o + length ≤ RAND_ALLOC_MEM_SIZE := by omega
    have hdis := (overlaps_eq_false_iff (arena E s).regions o length (by omega)
      (fun r hr => by have := hA.2.1 r hr; omega)).mp hov
    exact invariant_push E (add_draws (init_state E s) (j + 1)) o length hA hin hdis

/-- A call of `bennet_rand_alloc_free` keeps the invariant: it removes at most one region. -/
theorem free_keeps_invariant (E : Env) (ptr : Nat) (s : State)
    (hI : ArenaInvariant E s.global_rand_alloc) :
    ArenaInvariant E (bennet_rand_alloc_free ptr s).state.global_rand_alloc := by
  unfold bennet_rand_alloc_free
  by_cases hp : ptr = 0
  · rw [if_pos hp]; exact hI
  · rw [if_neg hp]
    by_cases hb : s.global_rand_alloc.buffer = 0
    · rw [if_pos hb]; exact hI
    · rw [if_neg hb]
      simp only []
      cases hfind : s.global_rand_alloc.regions.findIdx?
          (fun r => r.offset == wsub ptr s.global_rand_alloc.buffer) with
      | none => exact hI
      | some i =>
        obtain ⟨h1, h2, h3⟩ := hI
        refine ⟨h1, ?_, ?_⟩
        · intro r hr
          exact h2 r ((List.eraseIdx_sublist _ i).subset hr)
        · exact List.Pairwise.sublist (List.eraseIdx_sublist _ i) h3

/-- Every call keeps the invariant when the random source keeps its contract, the arena that
`malloc` provides lies in the address space and the domain of a bounded call lies inside it. -/
theorem call_keeps_invariant (E : Env) (c : Call) (s : State)
    (hR : RandInRange E.rnd) (hM : E.malloc_result + RAND_ALLOC_MEM_SIZE ≤ SZ)
    (hD : ∀ cs, c = .alloc_bounded cs → DomainInArena E cs)
    (hI : ArenaInvariant E s.global_rand_alloc) :
    ArenaInvariant E (call E c s).state.global_rand_alloc := by
  cases c with
  | alloc length => exact alloc_keeps_invariant E length s hR hI
  | alloc_bounded cs => exact bounded_keeps_invariant E cs s hM (hD cs rfl) hI
  | free ptr => exact free_keeps_invariant E ptr s hI
  | free_all =>
    obtain ⟨h1, -, -⟩ := hI
    refine ⟨h1, ?_, List.Pairwise.nil⟩
    intro r hr
    exact absurd hr (List.not_mem_nil r)

/-- Every run of calls keeps the invariant under the same conditions. -/
theorem run_keeps_invariant (E : Env)
    (hR : RandInRange E.rnd) (hM : E.malloc_result + RAND_ALLOC_MEM_SIZE ≤ SZ) :
    ∀ (calls : List Call) (s : State),
      (∀ cs, Call.alloc_bounded cs ∈ calls → DomainInArena E cs) →
      ArenaInvariant E s.global_rand_alloc →
      ArenaInvariant E (run E calls s).state.global_rand_alloc := by
  intro calls
  induction calls with
  | nil => intro s _ hI; exact hI
  | cons c rest ih =>
    intro s hD hI
    have hc := call_keeps_invariant E c s hR hM
      (fun cs hcs => hD cs (by rw [hcs]; exact List.mem_cons_self _ _)) hI
    cases rest with
    | nil => exact hc
    | cons c2 rest2 =>
      have hunf : run E (c :: c2 :: rest2) s
          = match call E c s with
            | .halted t => .halted t
            | .returned _ t => run E (c2 :: rest2) t := rfl
      rw [hunf]
      cases hcall : call E c s with
      | halted t =>
        rw [hcall] at hc
        exact hc
      | returned p t =>
        rw [hcall] at hc
        exact ih t (fun cs hcs => hD cs (List.mem_cons_of_mem _ hcs)) hc

/-- The no-overlap invariant for domains inside the arena: from the initial state, after every
sequence of `bennet_rand_alloc`, `bennet_rand_alloc_bounded`, `bennet_rand_alloc_free` and
`bennet_rand_alloc_free_all` calls in which the domain of every bounded call lies inside the
arena, and for every random source that keeps its contract, no two live regions intersect. -/
theorem no_overlap_in_arena (E : Env)
    (hR : RandInRange E.rnd) (hM : E.malloc_result + RAND_ALLOC_MEM_SIZE ≤ SZ)
    (calls : List Call)
    (hD : ∀ cs, Call.alloc_bounded cs ∈ calls → DomainInArena E cs) :
    NoOverlap (run E calls initial_state).state.global_rand_alloc.regions := by
  have hI : ArenaInvariant E initial_state.global_rand_alloc := by
    refine ⟨fun h => absurd rfl h, ?_, List.Pairwise.nil⟩
    intro r hr
    exact absurd hr (List.not_mem_nil r)
  exact (run_keeps_invariant E hR hM calls initial_state hD hI).2.2

/-! ### Exhaustion inside the arena -/

/-- A window of `n` uncovered bytes inside `[lo, hi]` gives at least `n` free bytes there. -/
theorem free_bytes_ge (regions : List rand_alloc_region) (lo hi al n : Nat)
    (h1 : lo ≤ al) (h2 : al + n ≤ hi + 1)
    (hfree : ∀ b, al ≤ b → b < al + n → covered regions b = false) :
    n ≤ free_bytes regions lo hi := by
  unfold free_bytes
  have hsplit : List.range' lo (hi + 1 - lo)
      = List.range' lo (al - lo) ++ (List.range' al n ++ List.range' (al + n) (hi + 1 - (al + n))) := by
    have e1 := List.range'_append_1 al n (hi + 1 - (al + n))
    have e2 := List.range'_append_1 lo (al - lo) (hi + 1 - (al + n) + n)
    have e3 : lo + (al - lo) = al := by omega
    rw [e3] at e2
    rw [e1, e2]
    congr 1
    omega
  rw [hsplit, List.filter_append, List.filter_append, List.length_append, List.length_append]
  have hmid : (List.range' al n).filter (fun b => !covered regions b) = List.range' al n := by
    rw [List.filter_eq_self]
    intro b hb
    rw [List.mem_range'_1] at hb
    rw [hfree b hb.1 hb.2]
    rfl
  rw [hmid, List.length_range']
  omega

/-- A byte of a candidate that is disjoint from every live region is not covered. -/
theorem covered_eq_false (regions : List rand_alloc_region) (o l b : Nat)
    (hdis : ∀ r ∈ regions, o + l ≤ r.offset ∨ r.offset + r.length ≤ o)
    (h1 : o ≤ b) (h2 : b < o + l) : covered regions b = false := by
  unfold covered
  rw [List.any_eq_false]
  intro r hr
  have := hdis r hr
  simp only [Bool.and_eq_true, decide_eq_true_eq, not_and, not_lt]
  intro h3
  omega

/-- Exhaustion for domains inside the arena: if the bounds of the domain lie inside the arena,
no live region wraps around `2 ^ 64`, and fewer than `footprint` bytes of `[low, high]` are
free, then `bennet_rand_alloc_bounded` reports `CN_FAILURE_ALLOC` / `NON_SPEC`, returns `NULL`
and leaves the Region Table as it was, either at the availability check without a draw or after
exactly 100 draws. -/
theorem bounded_alloc_exhausted_in_arena (E : Env) (cs : bennet_domain) (s : State)
    (hlen : 2 * (arena E s).buffer_len ≤ SZ)
    (hfit : (arena E s).buffer + (arena E s).buffer_len ≤ SZ)
    (hlow : (arena E s).buffer ≤ resolved_low (arena E s) cs)
    (hhigh : resolved_high (arena E s) cs < (arena E s).buffer + (arena E s).buffer_len)
    (hb : footprint cs ≠ 0)
    (hlh : resolved_low (arena E s) cs ≤ resolved_high (arena E s) cs)
    (hregs : ∀ r ∈ (arena E s).regions, r.offset + r.length < SZ)
    (hfree : free_bytes (arena E s).regions (min_offset (arena E s) cs)
      (max_offset (arena E s) cs) < footprint cs) :
    ∃ t, bennet_rand_alloc_bounded E cs s = .returned 0 t ∧
      t.failures = s.failures ++ [(.CN_FAILURE_ALLOC, .NON_SPEC)] ∧
      t.global_rand_alloc = arena E s ∧
      (t.draws = s.draws ∨ t.draws = s.draws + 100) := by
  by_cases hchk : max_offset (arena E s) cs < min_offset (arena E s) cs ∨
      available_bytes (arena E s) cs < footprint cs
  · exact ⟨_, bounded_eq_failure E cs s hb hlh hchk, rfl, rfl, Or.inl rfl⟩
  · rw [bounded_eq_loop E cs s hb hlh hchk]
    rcases bounded_loop_cases E cs (footprint cs) (min_offset (arena E s) cs)
        (max_offset (arena E s) cs) (range (arena E s) cs) max_attempts (init_state E s)
      with h | ⟨j, -, h1, h2, -⟩
    · exact ⟨_, h, rfl, rfl, Or.inr rfl⟩
    · exfalso
      have hav : footprint cs ≤ available_bytes (arena E s) cs :=
        not_lt.mp (fun h => hchk (Or.inr h))
      obtain ⟨-, -, h3, h4, h5, -⟩ :=
        bounded_in_arena_offsets E cs s _ hlen hfit hlow hhigh hlh hb hav h1
      have hsum : candidate E cs (min_offset (arena E s) cs) (range (arena E s) cs)
          (add_draws (init_state E s) j) + footprint cs < SZ := by
        have := wadd_lt (candidate E cs (min_offset (arena E s) cs) (range (arena E s) cs)
          (add_draws (init_state E s) j)) (footprint cs)
        rw [h5] at this
        exact this
      have hdis := (overlaps_eq_false_iff (arena E s).regions _ (footprint cs) hsum hregs).mp h2
      have hge := free_bytes_ge (arena E s).regions (min_offset (arena E s) cs)
        (max_offset (arena E s) cs) _ (footprint cs) h3 h4
        (fun b hb1 hb2 => covered_eq_false _ _ _ b hdis hb1 hb2)
      omega

/-- The scenario of the specification for every random source: on the initial state, with the
arena at `heap_base`, a non-null result of the bounded allocation for the bounds `base + 100`
and `base + 199`, offset bounds 10 and 10 and multiple 8 has an offset from the arena base that
is a multiple of 8 between 104 and 176, so that `100 <= a - base`, `a - base + 19 <= 199`. -/
theorem scenario_offsets (E : Env) (hE : E.malloc_result = heap_base) (p : Nat) (t : State)
    (hret : bennet_rand_alloc_bounded E scenario_domain initial_state = .returned p t)
    (hp : p ≠ 0) :
    104 ≤ p - heap_base ∧ p - heap_base ≤ 176 ∧ (p - heap_base) % 8 = 0 := by
  have hbuf : (arena E initial_state).buffer = heap_base := hE
  have hlen : (arena E initial_state).buffer_len = RAND_ALLOC_MEM_SIZE := rfl
  have hlo : resolved_low (arena E initial_state) scenario_domain = heap_base + 100 := rfl
  have hhi : resolved_high (arena E initial_state) scenario_domain = heap_base + 199 := rfl
  have hfp : footprint scenario_domain = 20 := by decide
  have hin := bounded_alloc_in_arena E scenario_domain initial_state p t
    (by rw [hlen]; decide) (by rw [hbuf, hlen]; decide) (by rw [hbuf, hlo]; decide)
    (by rw [hbuf, hlen, hhi]; decide) hret hp
  have hd := bounded_result_sub_base_dvd E scenario_domain initial_state p t 3 (by decide) rfl
    hret hp
  rw [hbuf, hlo, hhi, hfp] at hin
  rw [hbuf] at hd
  have h8 : ((2 ^ 3 : Nat) : Int) = 8 := by norm_num
  rw [h8] at hd
  have hb : heap_base = 1048576 := rfl
  rw [hb] at hin hd ⊢
  omega

/-! ### Rounding and the overlap check -/

/-- C18: for every power-of-two alignment `A = 2 ^ k` of a 64-bit `size_t` and every raw offset
`r` with `r + (A - 1)` inside the `size_t` range, the aligned offset
`(r + (A - 1)) & ~(A - 1)` computed in `bennet_rand_alloc_bounded` is a multiple of `A`, is at
least `r`, is at most every multiple of `A` that is at least `r`, is below `r + A`, and is `r`
itself when `r` is a multiple of `A`. -/
theorem align_up_least_multiple (r k : Nat) (hk : k < 64) (hr : r + (2 ^ k - 1) < SZ) :
    2 ^ k ∣ align_up r (2 ^ k) ∧
    r ≤ align_up r (2 ^ k) ∧
    (∀ m, 2 ^ k ∣ m → r ≤ m → align_up r (2 ^ k) ≤ m) ∧
    align_up r (2 ^ k) < r + 2 ^ k ∧
    (r % 2 ^ k = 0 → align_up r (2 ^ k) = r) := by
  have hpos : 0 < 2 ^ k := Nat.two_pow_pos k
  have hdm := Nat.div_add_mod (r + (2 ^ k - 1)) (2 ^ k)
  have hmod := Nat.mod_lt (r + (2 ^ k - 1)) hpos
  rw [align_up_eq r k hk, wadd_eq _ _ hr]
  generalize (r + (2 ^ k - 1)) / 2 ^ k = q at hdm
  generalize (r + (2 ^ k - 1)) % 2 ^ k = e at hdm hmod
  have hlow : r ≤ 2 ^ k * q := by omega
  have hup : 2 ^ k * q < r + 2 ^ k := by omega
  refine ⟨Dvd.intro _ rfl, hlow, ?_, hup, ?_⟩
  · rintro m ⟨c, rfl⟩ hm
    by_contra hlt
    have h1 : c < q := Nat.lt_of_mul_lt_mul_left (not_le.mp hlt)
    have h2 : 2 ^ k * (c + 1) ≤ 2 ^ k * q := Nat.mul_le_mul_left _ h1
    rw [Nat.mul_add, Nat.mul_one] at h2
    omega
  · intro hdiv
    obtain ⟨c, hc⟩ := Nat.dvd_of_mod_eq_zero hdiv
    have h1 : 2 ^ k * q ≤ 2 ^ k * c := by
      by_contra hlt
      have h1 : c < q := Nat.lt_of_mul_lt_mul_left (not_le.mp hlt)
      have h2 : 2 ^ k * (c + 1) ≤ 2 ^ k * q := Nat.mul_le_mul_left _ h1
      rw [Nat.mul_add, Nat.mul_one] at h2
      omega
    omega

/-- C18 at alignment 8: the raw offset 100 is rounded up to 104, the aligned raw offset 104
stays 104. -/
theorem align_up_least_multiple_witness :
    (3 < 64 ∧ 100 + (2 ^ 3 - 1) < SZ ∧ align_up 100 (2 ^ 3) = 104 ∧ align_up 104 (2 ^ 3) = 104) ∧
    (2 ^ 3 ∣ align_up 100 (2 ^ 3) ∧
      100 ≤ align_up 100 (2 ^ 3) ∧
      (∀ m, 2 ^ 3 ∣ m → 100 ≤ m → align_up 100 (2 ^ 3) ≤ m) ∧
      align_up 100 (2 ^ 3) < 100 + 2 ^ 3 ∧
      (100 % 2 ^ 3 = 0 → align_up 100 (2 ^ 3) = 100)) :=
  ⟨⟨by decide, by decide, by decide, by decide⟩,
    align_up_least_multiple 100 3 (by decide) (by decide)⟩

/-- Without wrap-around of the ends, `overlaps` is true exactly when the check
`!(end <= r_start || offset >= r_end)` holds for some live region. -/
theorem overlaps_eq_true_iff (regions : List rand_alloc_region) (o l : Nat)
    (h1 : o + l < SZ) (h2 : ∀ r ∈ regions, r.offset + r.length < SZ) :
    overlaps regions o l = true ↔
      ∃ r ∈ regions, ¬ (o + l ≤ r.offset ∨ o ≥ r.offset + r.length) := by
  constructor
  · intro h
    by_contra hne
    have hf := (overlaps_eq_false_iff regions o l h1 h2).mpr (by
      intro r hr
      by_contra hd
      exact hne ⟨r, hr, hd⟩)
    rw [h] at hf
    exact Bool.noConfusion hf
  · rintro ⟨r, hr, hd⟩
    by_contra hne
    have hf : overlaps regions o l = false := by
      cases hov : overlaps regions o l
      · rfl
      · exact absurd hov hne
    exact hd ((overlaps_eq_false_iff regions o l h1 h2).mp hf r hr)

/-- C19: for every Region Table whose regions have length at least 1 and every candidate
`(offset, length)` with length at least 1, when neither `offset + length` nor the end of a live
region overflows `size_t`, `overlaps(offset, length)` is true if and only if some live region
shares a byte index with `[offset, offset + length)`, and if and only if for some live region
`not (offset + length <= r.offset or offset >= r.offset + r.length)`. -/
theorem overlaps_iff_intersects (regions : List rand_alloc_region) (o l : Nat)
    (hpos : ∀ r ∈ regions, 1 ≤ r.length) (hl : 1 ≤ l)
    (h1 : o + l < SZ) (h2 : ∀ r ∈ regions, r.offset + r.length < SZ) :
    (overlaps regions o l = true ↔
      ∃ r ∈ regions, ∃ b, o ≤ b ∧ b < o + l ∧ r.offset ≤ b ∧ b < r.offset + r.length) ∧
    (overlaps regions o l = true ↔
      ∃ r ∈ regions, ¬ (o + l ≤ r.offset ∨ o ≥ r.offset + r.length)) := by
  refine ⟨?_, overlaps_eq_true_iff regions o l h1 h2⟩
  rw [overlaps_eq_true_iff regions o l h1 h2]
  constructor
  · rintro ⟨r, hr, hd⟩
    have hrl := hpos r hr
    refine ⟨r, hr, max o r.offset, ?_⟩
    omega
  · rintro ⟨r, hr, b, hb1, hb2, hb3, hb4⟩
    exact ⟨r, hr, by omega⟩

/-- C19 at a table with the region `[104, 124)`: the candidate `[120, 130)` overlaps it (byte
120 is shared), the candidate `[124, 134)` does not. -/
theorem overlaps_iff_intersects_witness :
    ((∀ r ∈ [({ offset := 104, length := 20 } : rand_alloc_region)], 1 ≤ r.length) ∧
      1 ≤ 10 ∧ 120 + 10 < SZ ∧
      (∀ r ∈ [({ offset := 104, length := 20 } : rand_alloc_region)],
        r.offset + r.length < SZ) ∧
      overlaps [{ offset := 104, length := 20 }] 120 10 = true ∧
      overlaps [{ offset := 104, length := 20 }] 124 10 = false) ∧
    ((overlaps [{ offset := 104, length := 20 }] 120 10 = true ↔
        ∃ r ∈ [({ offset := 104, length := 20 } : rand_alloc_region)],
          ∃ b, 120 ≤ b ∧ b < 120 + 10 ∧ r.offset ≤ b ∧ b < r.offset + r.length) ∧
      (overlaps [{ offset := 104, length := 20 }] 120 10 = true ↔
        ∃ r ∈ [({ offset := 104, length := 20 } : rand_alloc_region)],
          ¬ (120 + 10 ≤ r.offset ∨ 120 ≥ r.offset + r.length))) :=
  ⟨⟨by decide, by decide, by decide, by decide, by decide, by decide⟩,
    overlaps_iff_intersects [{ offset := 104, length := 20 }] 120 10 (by decide) (by decide)
      (by decide) (by decide)⟩

/-! ### Free -/

/-- Deleting the element at the first index found by the scan is erasing the first element that
satisfies the test. -/
theorem scan_delete_eq_eraseP (l : List rand_alloc_region) (q : rand_alloc_region → Bool) :
    (match l.findIdx? q with
      | some i => l.eraseIdx i
      | none => l) = l.eraseP q := by
  induction l with
  | nil => rfl
  | cons x xs ih =>
    by_cases hx : q x = true
    · rw [List.findIdx?_cons, if_pos hx, List.eraseP_cons_of_pos hx]
      rfl
    · rw [List.findIdx?_cons, if_neg hx, List.eraseP_cons_of_neg hx, List.findIdx?_succ]
      cases hfind : xs.findIdx? q with
      | none =>
        rw [hfind] at ih
        simp only [Option.map_none']
        rw [← ih]
      | some i =>
        rw [hfind] at ih
        simp only [Option.map_some', List.eraseIdx_cons_succ]
        rw [← ih]

theorem free_table_eq_eraseP (regions : List rand_alloc_region) (o : Nat) :
    free_table regions o = regions.eraseP (fun r => r.offset == o) :=
  scan_delete_eq_eraseP regions _

/-- On an initialised arena, freeing a non-null pointer returns with the table scanned for the
offset of the pointer from the arena base; nothing else changes. -/
theorem free_eq (s : State) (p : Nat) (hinit : s.global_rand_alloc.buffer ≠ 0) (hp : p ≠ 0) :
    bennet_rand_alloc_free p s
      = .returned 0 (with_regions s
          (free_table s.global_rand_alloc.regions (wsub p s.global_rand_alloc.buffer))) := by
  unfold bennet_rand_alloc_free free_table with_regions
  rw [if_neg hp, if_neg hinit]
  simp only []
  cases s.global_rand_alloc.regions.findIdx?
      (fun r => r.offset == wsub p s.global_rand_alloc.buffer) with
  | none => rfl
  | some i => rfl

/-- The scan leaves a table without a region at the offset as it is. -/
theorem free_table_of_no_match (regions : List rand_alloc_region) (o : Nat)
    (h : ∀ x ∈ regions, x.offset ≠ o) : free_table regions o = regions := by
  rw [free_table_eq_eraseP]
  apply List.eraseP_of_forall_not
  intro a ha
  simp only [beq_iff_eq]
  exact h a ha

/-- The scan deletes the first region at the offset and keeps the others in their order. -/
theorem free_table_of_match (l1 l2 : List rand_alloc_region) (r : rand_alloc_region) (o : Nat)
    (hr : r.offset = o) (h : ∀ x ∈ l1, x.offset ≠ o) :
    free_table (l1 ++ r :: l2) o = l1 ++ l2 := by
  rw [free_table_eq_eraseP, List.eraseP_append_right]
  · rw [List.eraseP_cons_of_pos]
    simp only [beq_iff_eq]
    exact hr
  · intro b hb
    simp only [beq_iff_eq]
    exact h b hb

/-- A table with a region at the offset splits at the first such region. -/
theorem split_at_first_match (regions : List rand_alloc_region) (o : Nat)
    (h : ∃ r ∈ regions, r.offset = o) :
    ∃ l1 r0 l2, regions = l1 ++ r0 :: l2 ∧ r0.offset = o ∧ ∀ x ∈ l1, x.offset ≠ o := by
  induction regions with
  | nil =>
    obtain ⟨r, hr, -⟩ := h
    exact absurd hr (List.not_mem_nil r)
  | cons x xs ih =>
    by_cases hx : x.offset = o
    · exact ⟨[], x, xs, rfl, hx, fun y hy => absurd hy (List.not_mem_nil y)⟩
    · obtain ⟨r, hr, hro⟩ := h
      have hr2 : r ∈ xs := by
        rcases List.mem_cons.mp hr with h1 | h1
        · rw [h1] at hro
          exact absurd hro hx
        · exact h1
      obtain ⟨l1, r0, l2, h1, h2, h3⟩ := ih ⟨r, hr2, hro⟩
      refine ⟨x :: l1, r0, l2, by rw [h1]; rfl, h2, ?_⟩
      intro y hy
      rcases List.mem_cons.mp hy with h4 | h4
      · rw [h4]; exact hx
      · exact h3 y h4

/-- In a table without overlap, a region of positive length shares its offset with no other
region of positive length. -/
theorem no_other_at_offset (l1 l2 : List rand_alloc_region) (r : rand_alloc_region)
    (hno : NoOverlap (l1 ++ r :: l2)) (hr : 0 < r.length) :
    ∀ x ∈ l1 ++ l2, 0 < x.length → x.offset ≠ r.offset := by
  unfold NoOverlap at hno
  rw [List.pairwise_append] at hno
  obtain ⟨-, h2, h3⟩ := hno
  rw [List.pairwise_cons] at h2
  intro x hx hxl hxo
  rcases List.mem_append.mp hx with h | h
  · have := h3 x h r (List.mem_cons_self _ _)
    omega
  · have := h2.1 x h
    omega

/-- C11: on an initialised arena, for every Region Table without overlap and every non-null
pointer `p`, `bennet_rand_alloc_free(p)` returns with draws, failure log and arena unchanged;
if no live region starts at the offset `p - arena_base` the Region Table is unchanged; if one
does, the first live region at that offset is removed and every other region is kept in its
order, and when the removed region has positive length no other region of positive length
started at that offset. -/
theorem free_removes_exact_offset (s : State) (p : Nat)
    (hinit : s.global_rand_alloc.buffer ≠ 0) (hp : p ≠ 0)
    (hno : NoOverlap s.global_rand_alloc.regions) :
    ∃ t, bennet_rand_alloc_free p s = .returned 0 t ∧
      t.draws = s.draws ∧ t.failures = s.failures ∧
      t.global_rand_alloc.buffer = s.global_rand_alloc.buffer ∧
      t.global_rand_alloc.buffer_len = s.global_rand_alloc.buffer_len ∧
      (s.global_rand_alloc.buffer ≤ p → p < SZ →
        wsub p s.global_rand_alloc.buffer = p - s.global_rand_alloc.buffer) ∧
      ((∀ x ∈ s.global_rand_alloc.regions, x.offset ≠ wsub p s.global_rand_alloc.buffer) →
        t.global_rand_alloc.regions = s.global_rand_alloc.regions) ∧
      ((∃ r ∈ s.global_rand_alloc.regions, r.offset = wsub p s.global_rand_alloc.buffer) →
        ∃ l1 r0 l2, s.global_rand_alloc.regions = l1 ++ r0 :: l2 ∧
          r0.offset = wsub p s.global_rand_alloc.buffer ∧
          (∀ x ∈ l1, x.offset ≠ wsub p s.global_rand_alloc.buffer) ∧
          t.global_rand_alloc.regions = l1 ++ l2 ∧
          (0 < r0.length →
            ∀ x ∈ l1 ++ l2, 0 < x.length → x.offset ≠ wsub p s.global_rand_alloc.buffer)) := by
  refine ⟨_, free_eq s p hinit hp, rfl, rfl, rfl, rfl, ?_, ?_, ?_⟩
  · intro h1 h2
    exact wsub_eq _ _ h2 h1
  · intro h
    exact free_table_of_no_match _ _ h
  · intro h
    obtain ⟨l1, r0, l2, h1, h2, h3⟩ := split_at_first_match _ _ h
    refine ⟨l1, r0, l2, h1, h2, h3, ?_, ?_⟩
    · show free_table s.global_rand_alloc.regions _ = _
      rw [h1]
      exact free_table_of_match l1 l2 r0 _ h2 h3
    · intro hr0
      rw [h1] at hno
      rw [← h2]
      exact no_other_at_offset l1 l2 r0 hno hr0

/-- C11 at the table `[{0, 104}, {104, 20}, {200, 8}]`: freeing `base + 104` removes the middle
region and keeps the other two in order; freeing the interior pointer `base + 110` leaves the
table unchanged. -/
theorem free_removes_exact_offset_witness :
    ((example_state [{ offset := 0, length := 104 }, { offset := 104, length := 20 },
          { offset := 200, length := 8 }] 3 []).global_rand_alloc.buffer ≠ 0 ∧
      heap_base + 104 ≠ 0 ∧
      NoOverlap (example_state [{ offset := 0, length := 104 }, { offset := 104, length := 20 },
          { offset := 200, length := 8 }] 3 []).global_rand_alloc.regions ∧
      bennet_rand_alloc_free (heap_base + 104)
          (example_state [{ offset := 0, length := 104 }, { offset := 104, length := 20 },
            { offset := 200, length := 8 }] 3 [])
        = .returned 0 (example_state [{ offset := 0, length := 104 },
            { offset := 200, length := 8 }] 3 []) ∧
      bennet_rand_alloc_free (heap_base + 110)
          (example_state [{ offset := 0, length := 104 }, { offset := 104, length := 20 },
            { offset := 200, length := 8 }] 3 [])
        = .returned 0 (example_state [{ offset := 0, length := 104 },
            { offset := 104, length := 20 }, { offset := 200, length := 8 }] 3 [])) ∧
    ∃ t, bennet_rand_alloc_free (heap_base + 104)
        (example_state [{ offset := 0, length := 104 }, { offset := 104, length := 20 },
          { offset := 200, length := 8 }] 3 []) = .returned 0 t :=
  ⟨⟨by decide, by decide, by decide, by decide, by decide⟩,
    (free_removes_exact_offset
      (example_state [{ offset := 0, length := 104 }, { offset := 104, length := 20 },
        { offset := 200, length := 8 }] 3 [])
      (heap_base + 104) (by decide) (by decide) (by decide)).imp (fun _ h => h.1)⟩

/-- C12, failing input: after two calls of `bennet_rand_alloc_bounded` on the empty table with
the domain `[base - 100, base - 1]` and footprint 100, which both return `p = base - 100`, the
table holds the region `{2 ^ 64 - 100, 100}` twice; one `bennet_rand_alloc_free(p)` leaves one
of them live, a second `bennet_rand_alloc_free(p)` removes that one too, so the table after the
double free is not the table after the single free. -/
theorem double_free_removes_second_region :
    run (env_of 0) [.alloc_bounded below_domain_full, .alloc_bounded below_domain_full]
        initial_state
      = .returned (heap_base - 100)
          (example_state [{ offset := 2 ^ 64 - 100, length := 100 },
            { offset := 2 ^ 64 - 100, length := 100 }] 2 []) ∧
    run (env_of 0) [.alloc_bounded below_domain_full, .alloc_bounded below_domain_full,
        .free (heap_base - 100)] initial_state
      = .returned 0 (example_state [{ offset := 2 ^ 64 - 100, length := 100 }] 2 []) ∧
    run (env_of 0) [.alloc_bounded below_domain_full, .alloc_bounded below_domain_full,
        .free (heap_base - 100), .free (heap_base - 100)] initial_state
      = .returned 0 (example_state [] 2 []) ∧
    (example_state [] 2 []).global_rand_alloc.regions
      ≠ (example_state [{ offset := 2 ^ 64 - 100, length := 100 }] 2
          []).global_rand_alloc.regions :=
  ⟨by decide, by decide, by decide, by decide⟩

/-- On a table without overlap whose regions have positive length, a second
`bennet_rand_alloc_free` of the same pointer ends as the first did, in the same state. -/
theorem double_free_eq (s : State) (p : Nat)
    (hno : NoOverlap s.global_rand_alloc.regions)
    (hpos : PositiveLengths s.global_rand_alloc.regions) :
    bennet_rand_alloc_free p (bennet_rand_alloc_free p s).state = bennet_rand_alloc_free p s := by
  by_cases hp : p = 0
  · have h : bennet_rand_alloc_free p s = .returned 0 s := by
      unfold bennet_rand_alloc_free
      exact if_pos hp
    rw [h]
    exact h
  · by_cases hb : s.global_rand_alloc.buffer = 0
    · have h : bennet_rand_alloc_free p s = .halted s := by
        unfold bennet_rand_alloc_free
        rw [if_neg hp]
        exact if_pos hb
      rw [h]
      exact h
    · rw [free_eq s p hb hp]
      have hb2 : (with_regions s (free_table s.global_rand_alloc.regions
          (wsub p s.global_rand_alloc.buffer))).global_rand_alloc.buffer ≠ 0 := hb
      show bennet_rand_alloc_free p (with_regions s _) = _
      rw [free_eq _ p hb2 hp]
      have hidem : free_table (free_table s.global_rand_alloc.regions
            (wsub p s.global_rand_alloc.buffer)) (wsub p s.global_rand_alloc.buffer)
          = free_table s.global_rand_alloc.regions (wsub p s.global_rand_alloc.buffer) := by
        by_cases hm : ∃ r ∈ s.global_rand_alloc.regions,
            r.offset = wsub p s.global_rand_alloc.buffer
        · obtain ⟨l1, r0, l2, h1, h2, h3⟩ := split_at_first_match _ _ hm
          rw [h1, free_table_of_match l1 l2 r0 _ h2 h3]
          apply free_table_of_no_match
          intro x hx
          rw [h1] at hno hpos
          have hr0 : 0 < r0.length := hpos r0 (by simp)
          have hxl : 0 < x.length := hpos x (by
            rcases List.mem_append.mp hx with h | h
            · exact List.mem_append_left _ h
            · exact List.mem_append_right _ (List.mem_cons_of_mem _ h))
          rw [← h2]
          exact no_other_at_offset l1 l2 r0 hno hr0 x hx hxl
        · have hnm : ∀ x ∈ s.global_rand_alloc.regions,
              x.offset ≠ wsub p s.global_rand_alloc.buffer :=
            fun x hx hxo => hm ⟨x, hx, hxo⟩
          rw [free_table_of_no_match _ _ hnm]
          exact free_table_of_no_match _ _ hnm
      show Outcome.returned 0 (with_regions (with_regions s _) (free_table
        (free_table s.global_rand_alloc.regions (wsub p s.global_rand_alloc.buffer))
        (wsub p s.global_rand_alloc.buffer))) = _
      rw [hidem]
      rfl

/-- Every call keeps the lengths of the live regions positive. -/
theorem call_keeps_positive (E : Env) (c : Call) (s : State)
    (hpos : PositiveLengths s.global_rand_alloc.regions) :
    PositiveLengths (call E c s).state.global_rand_alloc.regions := by
  have hA : PositiveLengths (arena E s).regions := by
    unfold arena init_state bennet_rand_alloc_init
    by_cases hb : s.global_rand_alloc.buffer = 0
    · rw [if_neg (not_not.mpr hb)]
      intro r hr
      exact absurd hr (List.not_mem_nil r)
    · rw [if_pos hb]
      exact hpos
  have hpush : ∀ (t : State) (o l : Nat), t.global_rand_alloc.regions = (arena E s).regions →
      0 < l → PositiveLengths (push_region t o l).global_rand_alloc.regions := by
    intro t o l ht hl r hr
    rcases List.mem_append.mp hr with h | h
    · rw [ht] at h
      exact hA r h
    · rw [List.mem_singleton] at h
      rw [h]
      exact hl
  cases c with
  | alloc length =>
    show PositiveLengths (bennet_rand_alloc E length s).state.global_rand_alloc.regions
    rcases alloc_cases E length s with h | h | ⟨j, o, -, -, h0, -, -, h⟩
    · rw [h]; exact hA
    · rw [h]; exact hA
    · rw [h]; exact hpush _ o length rfl h0
  | alloc_bounded cs =>
    show PositiveLengths (bennet_rand_alloc_bounded E cs s).state.global_rand_alloc.regions
    rcases bounded_cases E cs s with h | h | h | ⟨j, al, -, -, hb, -, -, -, -, -, h⟩
    · rw [h]; exact hA
    · rw [h]; exact hA
    · rw [h]; exact hA
    · rw [h]; exact hpush _ al (footprint cs) rfl (Nat.pos_of_ne_zero hb)
  | free ptr =>
    show PositiveLengths (bennet_rand_alloc_free ptr s).state.global_rand_alloc.regions
    by_cases hp : ptr = 0
    · have h : bennet_rand_alloc_free ptr s = .returned 0 s := by
        unfold bennet_rand_alloc_free
        exact if_pos hp
      rw [h]; exact hpos
    · by_cases hb : s.global_rand_alloc.buffer = 0
      · have h : bennet_rand_alloc_free ptr s = .halted s := by
          unfold bennet_rand_alloc_free
          rw [if_neg hp]
          exact if_pos hb
        rw [h]; exact hpos
      · rw [free_eq s ptr hb hp]
        intro r hr
        have hr2 : r ∈ free_table s.global_rand_alloc.regions
            (wsub ptr s.global_rand_alloc.buffer) := hr
        rw [free_table_eq_eraseP] at hr2
        exact hpos r ((List.eraseP_sublist _).subset hr2)
  | free_all =>
    intro r hr
    exact absurd hr (List.not_mem_nil r)

/-- Every run keeps the lengths of the live regions positive. -/
theorem run_keeps_positive (E : Env) :
    ∀ (calls : List Call) (s : State),
      PositiveLengths s.global_rand_alloc.regions →
      PositiveLengths (run E calls s).state.global_rand_alloc.regions := by
  intro calls
  induction calls with
  | nil => intro s hI; exact hI
  | cons c rest ih =>
    intro s hI
    have hc := call_keeps_positive E c s hI
    cases rest with
    | nil => exact hc
    | cons c2 rest2 =>
      have hunf : run E (c :: c2 :: rest2) s
          = match call E c s with
            | .halted t => .halted t
            | .returned _ t => run E (c2 :: rest2) t := rfl
      rw [hunf]
      cases hcall : call E c s with
      | halted t =>
        rw [hcall] at hc
        exact hc
      | returned p t =>
        rw [hcall] at hc
        exact ih t hc

/-- Double free for domains inside the arena: in every state reached from the initial state by
calls in which the domain of every bounded call lies inside the arena, with a random source
that keeps its contract, `bennet_rand_alloc_free(p)` twice ends in the same state as
`bennet_rand_alloc_free(p)` once. -/
theorem double_free_in_arena (E : Env)
    (hR : RandInRange E.rnd) (hM : E.malloc_result + RAND_ALLOC_MEM_SIZE ≤ SZ)
    (calls : List Call)
    (hD : ∀ cs, Call.alloc_bounded cs ∈ calls → DomainInArena E cs) (p : Nat) :
    bennet_rand_alloc_free p
        (bennet_rand_alloc_free p (run E calls initial_state).state).state
      = bennet_rand_alloc_free p (run E calls initial_state).state := by
  apply double_free_eq
  · exact no_overlap_in_arena E hR hM calls hD
  · apply run_keeps_positive
    intro r hr
    exact absurd hr (List.not_mem_nil r)

/-- C13, counterexample: on the initial state, whose arena has not been initialised, freeing the
non-null pointer `heap_base` halts on the assertion `global_rand_alloc.buffer != NULL`. -/
theorem free_halts_before_init :
    initial_state.global_rand_alloc.buffer = 0 ∧ heap_base ≠ 0 ∧
    bennet_rand_alloc_free heap_base initial_state = .halted initial_state :=
  ⟨by decide, by decide, by decide⟩

/-- C13, amended: for every allocator state and every pointer `p`, `bennet_rand_alloc_free(p)`
halts (on the assertion that the arena exists, in the state of the call) if and only if `p` is
non-null and the arena has not been initialised; in every other case, `p` null, matching or
non-matching, it returns normally, reports no failure, draws nothing and keeps the arena. -/
theorem free_halts_iff (s : State) (p : Nat) :
    ((∃ t, bennet_rand_alloc_free p s = .halted t) ↔
      (p ≠ 0 ∧ s.global_rand_alloc.buffer = 0)) ∧
    (∀ t, bennet_rand_alloc_free p s = .halted t → t = s) ∧
    (¬ (p ≠ 0 ∧ s.global_rand_alloc.buffer = 0) →
      ∃ t, bennet_rand_alloc_free p s = .returned 0 t ∧
        t.failures = s.failures ∧ t.draws = s.draws ∧
        t.global_rand_alloc.buffer = s.global_rand_alloc.buffer ∧
        t.global_rand_alloc.buffer_len = s.global_rand_alloc.buffer_len) := by
  by_cases hp : p = 0
  · have h : bennet_rand_alloc_free p s = .returned 0 s := by
      unfold bennet_rand_alloc_free
      exact if_pos hp
    rw [h]
    refine ⟨⟨fun ⟨t, ht⟩ => Outcome.noConfusion ht, fun hh => absurd hp hh.1⟩, ?_, ?_⟩
    · intro t ht
      exact Outcome.noConfusion ht
    · intro _
      exact ⟨s, rfl, rfl, rfl, rfl, rfl⟩
  · by_cases hb : s.global_rand_alloc.buffer = 0
    · have h : bennet_rand_alloc_free p s = .halted s := by
        unfold bennet_rand_alloc_free
        rw [if_neg hp]
        exact if_pos hb
      rw [h]
      refine ⟨⟨fun _ => ⟨hp, hb⟩, fun _ => ⟨s, rfl⟩⟩, ?_, ?_⟩
      · intro t ht
        injection ht with ht
        exact ht.symm
      · intro hn
        exact absurd ⟨hp, hb⟩ hn
    · rw [free_eq s p hb hp]
      refine ⟨⟨fun ⟨t, ht⟩ => Outcome.noConfusion ht, fun hh => absurd hh.2 hb⟩, ?_, ?_⟩
      · intro t ht
        exact Outcome.noConfusion ht
      · intro _
        exact ⟨_, rfl, rfl, rfl, rfl, rfl⟩

/-! ### Free all and reuse -/

theorem overlaps_nil (o l : Nat) : overlaps [] o l = false := rfl

/-- An attempt whose drawn offset passes the overlap check ends the loop with that region. -/
theorem alloc_loop_first_attempt (E : Env) (length n : Nat) (s : State)
    (hov : overlaps s.global_rand_alloc.regions (drawn_offset E length s) length = false) :
    bennet_rand_alloc_loop E length (n + 1) s
      = .returned (wadd s.global_rand_alloc.buffer (drawn_offset E length s))
          (push_region (drawn s) (drawn_offset E length s) length) := by
  simp only [bennet_rand_alloc_loop]
  exact if_pos hov

/-- On an empty table `bennet_rand_alloc` with a valid length returns after its first draw. -/
theorem alloc_on_empty_table (E : Env) (length : Nat) (t : State)
    (htr : t.global_rand_alloc.regions = [])
    (h0 : 0 < length) (hl : length ≤ (arena E t).buffer_len) :
    bennet_rand_alloc E length t
      = .returned (wadd (arena E t).buffer (drawn_offset E length (init_state E t)))
          (push_region (drawn (init_state E t)) (drawn_offset E length (init_state E t))
            length) ∧
    (push_region (drawn (init_state E t)) (drawn_offset E length (init_state E t))
        length).global_rand_alloc.regions
      = [{ offset := drawn_offset E length (init_state E t), length := length }] := by
  have hreg : (init_state E t).global_rand_alloc.regions = [] := by
    unfold init_state bennet_rand_alloc_init
    by_cases hb : t.global_rand_alloc.buffer = 0
    · simp only []
      rw [if_neg (not_not.mpr hb)]
    · simp only []
      rw [if_pos hb]
      exact htr
  have hnot : ¬ (length = 0 ∨ length > (init_state E t).global_rand_alloc.buffer_len) := by
    intro h
    rcases h with h | h
    · omega
    · exact absurd hl (not_le.mpr h)
  have hov : overlaps (init_state E t).global_rand_alloc.regions
      (drawn_offset E length (init_state E t)) length = false := by
    rw [hreg]
    rfl
  constructor
  · unfold bennet_rand_alloc
    simp only []
    rw [if_neg hnot]
    exact alloc_loop_first_attempt E length 99 (init_state E t) hov
  · show (init_state E t).global_rand_alloc.regions ++ [_] = [_]
    rw [hreg]
    rfl

/-- C15: for every allocator state, `bennet_rand_alloc_free_all` returns with no live region
left and with the arena base and length, the draw count and the failure log unchanged; the
overlap check is then false for every candidate, and a following `bennet_rand_alloc(length)`
with `0 < length <= arena_len` returns after its first draw with the drawn region as the only
live region and no failure reported; its result is the non-null pointer `arena_base + o` with
`o <= arena_len - length` when the random source keeps its contract and the arena is a
non-null object of the address space. -/
theorem free_all_clears (s : State) :
    bennet_rand_alloc_free_all s = .returned 0 (with_regions s []) ∧
    (with_regions s []).global_rand_alloc.regions = [] ∧
    (with_regions s []).global_rand_alloc.buffer = s.global_rand_alloc.buffer ∧
    (with_regions s []).global_rand_alloc.buffer_len = s.global_rand_alloc.buffer_len ∧
    (with_regions s []).draws = s.draws ∧ (with_regions s []).failures = s.failures ∧
    (∀ o l, overlaps (with_regions s []).global_rand_alloc.regions o l = false) ∧
    (∀ (E : Env) (length : Nat), 0 < length →
      length ≤ (arena E (with_regions s [])).buffer_len →
      ∃ o u, o = drawn_offset E length (init_state E (with_regions s [])) ∧
        bennet_rand_alloc E length (with_regions s [])
          = .returned (wadd (arena E (with_regions s [])).buffer o) u ∧
        u.global_rand_alloc.regions = [{ offset := o, length := length }] ∧
        u.draws = s.draws + 1 ∧ u.failures = s.failures ∧
        (RandInRange E.rnd → (arena E (with_regions s [])).buffer ≠ 0 →
          (arena E (with_regions s [])).buffer_len < SZ →
          (arena E (with_regions s [])).buffer + (arena E (with_regions s [])).buffer_len ≤ SZ →
          o ≤ (arena E (with_regions s [])).buffer_len - length ∧
          wadd (arena E (with_regions s [])).buffer o
            = (arena E (with_regions s [])).buffer + o ∧
          wadd (arena E (with_regions s [])).buffer o ≠ 0)) := by
  refine ⟨rfl, rfl, rfl, rfl, rfl, rfl, fun o l => overlaps_nil o l, ?_⟩
  intro E length h0 hl
  obtain ⟨h1, h2⟩ := alloc_on_empty_table E length (with_regions s []) rfl h0 hl
  refine ⟨_, _, rfl, h1, h2, rfl, rfl, ?_⟩
  intro hR hB hlen hfit
  have hle := drawn_offset_le E hR length (init_state E (with_regions s [])) hlen hl h0
  have hle2 : drawn_offset E length (init_state E (with_regions s []))
      ≤ (arena E (with_regions s [])).buffer_len - length := hle
  have hw : wadd (arena E (with_regions s [])).buffer
        (drawn_offset E length (init_state E (with_regions s [])))
      = (arena E (with_regions s [])).buffer
        + drawn_offset E length (init_state E (with_regions s [])) :=
    wadd_eq _ _ (by omega)
  refine ⟨hle2, hw, ?_⟩
  rw [hw]
  omega

/-- The loop of `bennet_rand_alloc` fails exactly when each of its `n` drawn offsets overlaps a
live region; otherwise it succeeds with the first drawn offset that does not. -/
theorem alloc_loop_first_fit (E : Env) (length : Nat) :
    ∀ (n : Nat) (s : State),
      ((∀ j, j < n →
          overlaps s.global_rand_alloc.regions (drawn_offset E length (add_draws s j)) length
            = true) ∧
        bennet_rand_alloc_loop E length n s
          = .returned 0 (cn_failure .CN_FAILURE_ALLOC .NON_SPEC (add_draws s n))) ∨
      ∃ j, j < n ∧
        overlaps s.global_rand_alloc.regions (drawn_offset E length (add_draws s j)) length
          = false ∧
        bennet_rand_alloc_loop E length n s
          = .returned (wadd s.global_rand_alloc.buffer (drawn_offset E length (add_draws s j)))
              (push_region (add_draws s (j + 1)) (drawn_offset E length (add_draws s j))
                length) := by
  intro n
  induction n with
  | zero =>
    intro s
    left
    exact ⟨fun j hj => absurd hj (Nat.not_lt_zero j), rfl⟩
  | succ n ih =>
    intro s
    have hstep := ih (drawn s)
    simp only [add_draws_drawn] at hstep
    by_cases ho : overlaps s.global_rand_alloc.regions (drawn_offset E length s) length = false
    · right
      exact ⟨0, by omega, ho, alloc_loop_first_attempt E length n s ho⟩
    · have hrw : bennet_rand_alloc_loop E length (n + 1) s
          = bennet_rand_alloc_loop E length n (drawn s) := by
        simp only [bennet_rand_alloc_loop]
        exact if_neg ho
      rw [hrw]
      rcases hstep with ⟨hall, h⟩ | ⟨j, hj, h1, h2⟩
      · left
        refine ⟨?_, h⟩
        intro j hj
        cases j with
        | zero =>
          cases hov : overlaps s.global_rand_alloc.regions (drawn_offset E length s) length
          · exact absurd hov ho
          · exact hov
        | succ i => exact hall i (by omega)
      · right
        exact ⟨j + 1, by omega, h1, h2⟩

/-- In a table that is full apart from the bytes of the freed region `r`, a candidate inside
the arena passes the overlap check against the other regions exactly when it lies inside `r`. -/
theorem overlaps_rest_eq_false_iff (l1 l2 : List rand_alloc_region) (r : rand_alloc_region)
    (len o l : Nat) (hlen : len < SZ)
    (hno : NoOverlap (l1 ++ r :: l2))
    (hin : ∀ x ∈ l1 ++ l2, x.offset + x.length ≤ len)
    (hfull : ∀ b, b < len → ¬ (r.offset ≤ b ∧ b < r.offset + r.length) →
      covered (l1 ++ l2) b = true)
    (hl : 1 ≤ l) (hol : o + l ≤ len) :
    overlaps (l1 ++ l2) o l = false ↔ inside_region r o l := by
  rw [overlaps_eq_false_iff (l1 ++ l2) o l (by omega) (fun x hx => by have := hin x hx; omega)]
  unfold inside_region
  constructor
  · intro hdis
    have hbyte : ∀ b, o ≤ b → b < o + l → r.offset ≤ b ∧ b < r.offset + r.length := by
      intro b hb1 hb2
      by_contra hout
      have hc := hfull b (by omega) hout
      rw [covered_eq_false (l1 ++ l2) o l b hdis hb1 hb2] at hc
      exact Bool.noConfusion hc
    have h1 := hbyte o (le_refl _) (by omega)
    have h2 := hbyte (o + l - 1) (by omega) (by omega)
    omega
  · intro hins x hx
    unfold NoOverlap at hno
    rw [List.pairwise_append] at hno
    obtain ⟨-, h2, h3⟩ := hno
    rw [List.pairwise_cons] at h2
    rcases List.mem_append.mp hx with h | h
    · have := h3 x h r (List.mem_cons_self _ _)
      omega
    · have := h2.1 x h
      omega

/-- C14, counterexample: the arena is filled by `bennet_rand_alloc(2 ^ 24 - 64)` at offset 0 and
`bennet_rand_alloc(64)` at offset `2 ^ 24 - 64`; that second region is freed, and the following
`bennet_rand_alloc(64)` draws the offset 0 a hundred times, reports `CN_FAILURE_ALLOC` /
`NON_SPEC` and returns `NULL`, although the 64 freed bytes are free. -/
theorem reuse_fails_when_draws_miss :
    RandInRange (env_script [0, 16777152]).rnd ∧
    run (env_script [0, 16777152]) [.alloc 16777152, .alloc 64] initial_state
      = .returned (heap_base + 16777152)
          (example_state [{ offset := 0, length := 16777152 },
            { offset := 16777152, length := 64 }] 2 []) ∧
    (∀ b, b < RAND_ALLOC_MEM_SIZE → ¬ (16777152 ≤ b ∧ b < 16777152 + 64) →
      covered [{ offset := 0, length := 16777152 }] b = true) ∧
    run (env_script [0, 16777152])
        [.alloc 16777152, .alloc 64, .free (heap_base + 16777152)] initial_state
      = .returned 0 (example_state [{ offset := 0, length := 16777152 }] 2 []) ∧
    run (env_script [0, 16777152])
        [.alloc 16777152, .alloc 64, .free (heap_base + 16777152), .alloc 64] initial_state
      = .returned 0 (example_state [{ offset := 0, length := 16777152 }] 102
          [(.CN_FAILURE_ALLOC, .NON_SPEC)]) :=
  ⟨fun _ _ hn => Nat.mod_lt _ hn, by decide,
    fun b hb hout => by
      have h : RAND_ALLOC_MEM_SIZE = 16777216 := rfl
      rw [h] at hb
      simp only [covered, List.any_cons, List.any_nil, Bool.or_false, Bool.and_eq_true,
        decide_eq_true_eq]
      omega,
    by decide, by decide⟩

/-- C14, amended: in a table without overlap, with regions of positive length inside the arena,
in which every byte of the arena outside the region `r` of length `L` is covered by another live
region: `bennet_rand_alloc_free` of the pointer of `r` removes `r`; a following
`bennet_rand_alloc(L')` with `1 <= L' <= L` returns a non-null pointer if at least one of its
100 drawn offsets `o` satisfies `r.offset <= o` and `o + L' <= r.offset + L`, and the returned
region then lies inside the bytes of `r`; if no drawn offset does, it reports
`CN_FAILURE_ALLOC` / `NON_SPEC` after 100 draws and returns `NULL` with the table unchanged. -/
theorem free_then_reuse (E : Env) (s : State) (l1 l2 : List rand_alloc_region)
    (r : rand_alloc_region) (L' : Nat)
    (hR : RandInRange E.rnd)
    (hinit : s.global_rand_alloc.buffer ≠ 0)
    (hfit : s.global_rand_alloc.buffer + s.global_rand_alloc.buffer_len ≤ SZ)
    (htab : s.global_rand_alloc.regions = l1 ++ r :: l2)
    (hno : NoOverlap s.global_rand_alloc.regions)
    (hpos : PositiveLengths s.global_rand_alloc.regions)
    (hin : ∀ x ∈ s.global_rand_alloc.regions,
      x.offset + x.length ≤ s.global_rand_alloc.buffer_len)
    (hfull : ∀ b, b < s.global_rand_alloc.buffer_len →
      ¬ (r.offset ≤ b ∧ b < r.offset + r.length) → covered (l1 ++ l2) b = true)
    (hL1 : 1 ≤ L') (hL2 : L' ≤ r.length) :
    bennet_rand_alloc_free (s.global_rand_alloc.buffer + r.offset) s
      = .returned 0 (with_regions s (l1 ++ l2)) ∧
    ((∃ j, j < 100 ∧
        inside_region r (drawn_offset E L' (add_draws (with_regions s (l1 ++ l2)) j)) L') →
      ∃ o t, inside_region r o L' ∧
        bennet_rand_alloc E L' (with_regions s (l1 ++ l2))
          = .returned (s.global_rand_alloc.buffer + o) t ∧
        s.global_rand_alloc.buffer + o ≠ 0 ∧
        t.global_rand_alloc.regions = l1 ++ l2 ++ [{ offset := o, length := L' }] ∧
        t.failures = s.failures) ∧
    ((∀ j, j < 100 →
        ¬ inside_region r (drawn_offset E L' (add_draws (with_regions s (l1 ++ l2)) j)) L') →
      bennet_rand_alloc E L' (with_regions s (l1 ++ l2))
        = .returned 0 (cn_failure .CN_FAILURE_ALLOC .NON_SPEC
            (add_draws (with_regions s (l1 ++ l2)) 100))) := by
  have hrmem : r ∈ s.global_rand_alloc.regions := by rw [htab]; simp
  have hrin := hin r hrmem
  have hrpos : 0 < r.length := hpos r hrmem
  have hlen : s.global_rand_alloc.buffer_len < SZ := by omega
  have hsub : ∀ x ∈ l1 ++ l2, x ∈ s.global_rand_alloc.regions := by
    intro x hx
    rw [htab]
    rcases List.mem_append.mp hx with h | h
    · exact List.mem_append_left _ h
    · exact List.mem_append_right _ (List.mem_cons_of_mem _ h)
  -- the free
  have hp : s.global_rand_alloc.buffer + r.offset ≠ 0 := by omega
  have hoff : wsub (s.global_rand_alloc.buffer + r.offset) s.global_rand_alloc.buffer
      = r.offset := by
    rw [wsub_eq _ _ (by omega) (by omega)]
    omega
  have hfirst : ∀ x ∈ l1, x.offset ≠ r.offset := by
    intro x hx
    rw [htab] at hno
    exact no_other_at_offset l1 l2 r hno hrpos x (List.mem_append_left _ hx)
      (hpos x (hsub x (List.mem_append_left _ hx)))
  have hfree : bennet_rand_alloc_free (s.global_rand_alloc.buffer + r.offset) s
      = .returned 0 (with_regions s (l1 ++ l2)) := by
    rw [free_eq s _ hinit hp, hoff, htab, free_table_of_match l1 l2 r _ rfl hfirst]
  -- the allocation
  generalize hs1 : with_regions s (l1 ++ l2) = s1
  have hb1 : s1.global_rand_alloc.buffer = s.global_rand_alloc.buffer := by rw [← hs1]; rfl
  have hl1 : s1.global_rand_alloc.buffer_len = s.global_rand_alloc.buffer_len := by
    rw [← hs1]; rfl
  have hr1 : s1.global_rand_alloc.regions = l1 ++ l2 := by rw [← hs1]; rfl
  have hf1 : s1.failures = s.failures := by rw [← hs1]; rfl
  have hinit1 : s1.global_rand_alloc.buffer ≠ 0 := by rw [hb1]; exact hinit
  have hnot : ¬ (L' = 0 ∨ L' > (init_state E s1).global_rand_alloc.buffer_len) := by
    rw [init_state_of_initialised E s1 hinit1, hl1]
    omega
  have hunf : bennet_rand_alloc E L' s1 = bennet_rand_alloc_loop E L' 100 s1 := by
    unfold bennet_rand_alloc
    simp only []
    rw [if_neg hnot, init_state_of_initialised E s1 hinit1]
    rfl
  have hdraw : ∀ j, drawn_offset E L' (add_draws s1 j) + L' ≤ s.global_rand_alloc.buffer_len := by
    intro j
    have h := drawn_offset_le E hR L' (add_draws s1 j)
      (by show s1.global_rand_alloc.buffer_len < SZ; omega)
      (by show L' ≤ s1.global_rand_alloc.buffer_len; omega) hL1
    have h2 : drawn_offset E L' (add_draws s1 j) ≤ s1.global_rand_alloc.buffer_len - L' := h
    omega
  have hiff : ∀ j, overlaps s1.global_rand_alloc.regions
      (drawn_offset E L' (add_draws s1 j)) L' = false
        ↔ inside_region r (drawn_offset E L' (add_draws s1 j)) L' := by
    intro j
    rw [hr1]
    rw [htab] at hno
    exact overlaps_rest_eq_false_iff l1 l2 r s.global_rand_alloc.buffer_len _ L' hlen hno
      (fun x hx => hin x (hsub x hx)) hfull hL1 (hdraw j)
  refine ⟨hs1 ▸ hfree, ?_, ?_⟩
  · rintro ⟨j, hj, hins⟩
    rw [hunf]
    rcases alloc_loop_first_fit E L' 100 s1 with ⟨hall, -⟩ | ⟨i, -, h1, h2⟩
    · have := hall j hj
      rw [(hiff j).mpr hins] at this
      exact Bool.noConfusion this
    · have hi := (hiff i).mp h1
      have hw : wadd s1.global_rand_alloc.buffer (drawn_offset E L' (add_draws s1 i))
          = s.global_rand_alloc.buffer + drawn_offset E L' (add_draws s1 i) := by
        rw [hb1]
        exact wadd_eq _ _ (by have := hdraw i; omega)
      rw [hw] at h2
      refine ⟨_, _, hi, h2, by omega, ?_, hf1⟩
      show s1.global_rand_alloc.regions ++ [_] = _
      rw [hr1]
  · intro hnone
    rw [hunf]
    rcases alloc_loop_first_fit E L' 100 s1 with ⟨-, h⟩ | ⟨i, hi, h1, -⟩
    · exact h
    · exact absurd ((hiff i).mp h1) (hnone i hi)

/-- C14 amended, at the arena filled by `[0, 2 ^ 24 - 64)` and the last 64 bytes: freeing the
last region and allocating 64 bytes with a random source that answers `2 ^ 24 - 64` returns the
freed bytes again. -/
theorem free_then_reuse_witness :
    (RandInRange (env_of 16777152).rnd ∧
      full_arena_state.global_rand_alloc.buffer ≠ 0 ∧
      full_arena_state.global_rand_alloc.buffer + full_arena_state.global_rand_alloc.buffer_len
        ≤ SZ ∧
      full_arena_state.global_rand_alloc.regions
        = [{ offset := 0, length := 16777152 }] ++ { offset := 16777152, length := 64 } :: [] ∧
      NoOverlap full_arena_state.global_rand_alloc.regions ∧
      PositiveLengths full_arena_state.global_rand_alloc.regions ∧
      (∀ x ∈ full_arena_state.global_rand_alloc.regions,
        x.offset + x.length ≤ full_arena_state.global_rand_alloc.buffer_len) ∧
      1 ≤ 64 ∧ 64 ≤ ({ offset := 16777152, length := 64 } : rand_alloc_region).length ∧
      inside_region { offset := 16777152, length := 64 }
        (drawn_offset (env_of 16777152) 64
          (add_draws (with_regions full_arena_state ([{ offset := 0, length := 16777152 }] ++ []))
            0)) 64 ∧
      bennet_rand_alloc (env_of 16777152) 64
          (with_regions full_arena_state ([{ offset := 0, length := 16777152 }] ++ []))
        = .returned (heap_base + 16777152)
            (example_state [{ offset := 0, length := 16777152 },
              { offset := 16777152, length := 64 }] 3 [])) ∧
    bennet_rand_alloc_free (full_arena_state.global_rand_alloc.buffer + 16777152)
        full_arena_state
      = .returned 0
          (with_regions full_arena_state ([{ offset := 0, length := 16777152 }] ++ [])) :=
  ⟨⟨env_of_in_range 16777152, by decide, by decide, by decide, by decide,
      by unfold PositiveLengths; decide, by decide, by decide, by decide, by decide, by decide⟩,
    (free_then_reuse (env_of 16777152) full_arena_state [{ offset := 0, length := 16777152 }] []
      { offset := 16777152, length := 64 } 64 (env_of_in_range 16777152) (by decide)
      (by decide) (by decide) (by decide) (by unfold PositiveLengths; decide) (by decide)
      (fun b hb hout => by
        have h : full_arena_state.global_rand_alloc.buffer_len = 16777216 := rfl
        rw [h] at hb
        simp only [covered, List.append_nil, List.any_cons, List.any_nil, Bool.or_false,
          Bool.and_eq_true, decide_eq_true_eq]
        simp only [] at hout
        omega)
      (by decide) (by decide)).1⟩

/-! ### Checkpoints -/

/-- Activities only push: each stack after a sequence of activities starts with the stack
before it. -/
theorem acts_extend (E : Env) :
    ∀ (l : List Activity) (g : Generator),
      (∃ b, (acts E l g).bump = g.bump ++ b) ∧
      (∃ a, (acts E l g).alloc_ledger = g.alloc_ledger ++ a) ∧
      (∃ o, (acts E l g).ownership_ledger = g.ownership_ledger ++ o) := by
  intro l
  induction l with
  | nil =>
    intro g
    exact ⟨⟨[], (List.append_nil _).symm⟩, ⟨[], (List.append_nil _).symm⟩,
      ⟨[], (List.append_nil _).symm⟩⟩
  | cons a rest ih =>
    intro g
    obtain ⟨⟨b, hb⟩, ⟨al, hal⟩, ⟨o, ho⟩⟩ := ih (act E a g)
    show (∃ b, (acts E rest (act E a g)).bump = g.bump ++ b) ∧
      (∃ a1, (acts E rest (act E a g)).alloc_ledger = g.alloc_ledger ++ a1) ∧
      (∃ o, (acts E rest (act E a g)).ownership_ledger = g.ownership_ledger ++ o)
    rw [hb, hal, ho]
    cases a with
    | scratch x =>
      exact ⟨⟨[x] ++ b, by simp [act]⟩, ⟨al, rfl⟩, ⟨o, rfl⟩⟩
    | alloc_record x =>
      exact ⟨⟨b, rfl⟩, ⟨[x] ++ al, by simp [act]⟩, ⟨o, rfl⟩⟩
    | ownership_record x =>
      exact ⟨⟨b, rfl⟩, ⟨al, rfl⟩, ⟨[x] ++ o, by simp [act]⟩⟩
    | rand_call c =>
      exact ⟨⟨b, rfl⟩, ⟨al, rfl⟩, ⟨o, rfl⟩⟩

/-- Restoring the checkpoint saved before a sequence of activities truncates each stack to its
content at the save and leaves the state of the random allocator as the activities left it. -/
theorem restore_after_acts (E : Env) (l : List Activity) (g : Generator) :
    (bennet_checkpoint_restore (bennet_checkpoint_save g) (acts E l g)).bump = g.bump ∧
    (bennet_checkpoint_restore (bennet_checkpoint_save g) (acts E l g)).alloc_ledger
      = g.alloc_ledger ∧
    (bennet_checkpoint_restore (bennet_checkpoint_save g) (acts E l g)).ownership_ledger
      = g.ownership_ledger ∧
    (bennet_checkpoint_restore (bennet_checkpoint_save g) (acts E l g)).rand
      = (acts E l g).rand := by
  obtain ⟨⟨b, hb⟩, ⟨al, hal⟩, ⟨o, ho⟩⟩ := acts_extend E l g
  refine ⟨?_, ?_, ?_, rfl⟩
  · show (acts E l g).bump.take g.bump.length = g.bump
    rw [hb, List.take_left']
    rfl
  · show (acts E l g).alloc_ledger.take g.alloc_ledger.length = g.alloc_ledger
    rw [hal, List.take_left']
    rfl
  · show (acts E l g).ownership_ledger.take g.ownership_ledger.length = g.ownership_ledger
    rw [ho, List.take_left']
    rfl

/-- C16: with the Bump Scratch Stack, the allocation ledger and the Ownership Ledger as stacks
with a monotonic mark: for every state and every sequence of scratch allocations and records,
`bennet_checkpoint_save`, then the sequence, then `bennet_checkpoint_restore` of that
checkpoint leaves the bump frame identifier and the ownership mark (and both stacks) as they
were at the save; with no activity in between the restore changes nothing; and restoring the
same checkpoint a second time gives the state of restoring it once. -/
theorem checkpoint_round_trip (E : Env) (l : List Activity) (g : Generator) :
    cn_bump_get_frame_id (bennet_checkpoint_restore (bennet_checkpoint_save g) (acts E l g))
      = cn_bump_get_frame_id g ∧
    bennet_ownership_save (bennet_checkpoint_restore (bennet_checkpoint_save g) (acts E l g))
      = bennet_ownership_save g ∧
    bennet_checkpoint_save (bennet_checkpoint_restore (bennet_checkpoint_save g) (acts E l g))
      = bennet_checkpoint_save g ∧
    (bennet_checkpoint_restore (bennet_checkpoint_save g) (acts E l g)).bump = g.bump ∧
    (bennet_checkpoint_restore (bennet_checkpoint_save g) (acts E l g)).ownership_ledger
      = g.ownership_ledger ∧
    bennet_checkpoint_restore (bennet_checkpoint_save g) g = g ∧
    bennet_checkpoint_restore (bennet_checkpoint_save g)
        (bennet_checkpoint_restore (bennet_checkpoint_save g) (acts E l g))
      = bennet_checkpoint_restore (bennet_checkpoint_save g) (acts E l g) := by
  obtain ⟨h1, h2, h3, -⟩ := restore_after_acts E l g
  refine ⟨?_, ?_, ?_, h1, h3, ?_, ?_⟩
  · unfold cn_bump_get_frame_id
    rw [h1]
  · unfold bennet_ownership_save
    rw [h3]
  · show bennet_checkpoint.mk _ _ _ = bennet_checkpoint.mk _ _ _
    show bennet_checkpoint.mk
        (bennet_checkpoint_restore (bennet_checkpoint_save g) (acts E l g)).bump.length
        (bennet_checkpoint_restore (bennet_checkpoint_save g) (acts E l g)).alloc_ledger.length
        (bennet_checkpoint_restore (bennet_checkpoint_save g)
          (acts E l g)).ownership_ledger.length = _
    rw [h1, h2, h3]
    rfl
  · unfold bennet_checkpoint_restore bennet_checkpoint_save bennet_ownership_restore
      bennet_alloc_restore cn_bump_free_after cn_bump_get_frame_id bennet_alloc_save
      bennet_ownership_save
    simp only [List.take_length]
  · unfold bennet_checkpoint_restore bennet_checkpoint_save bennet_ownership_restore
      bennet_alloc_restore cn_bump_free_after cn_bump_get_frame_id bennet_alloc_save
      bennet_ownership_save
    simp only [List.take_take, Nat.min_self]

/-- C17: `bennet_checkpoint_save` does not depend on the state of the random allocator, and
`bennet_checkpoint_restore` leaves it as it is: for every state and every sequence of
activities after the save, calls of `bennet_rand_alloc` and `bennet_rand_alloc_bounded`
included, the allocator state (Region Table, arena, draws, failure log) after the restore is
the one just before the restore, so the overlap check and every following allocator call
behave as they did before the restore: a candidate that shares a byte with a region live
before the restore is still rejected by the overlap check after it. -/
theorem regions_survive_restore (E : Env) (l : List Activity) (g : Generator) :
    (∀ st, bennet_checkpoint_save { g with rand := st } = bennet_checkpoint_save g) ∧
    (bennet_checkpoint_restore (bennet_checkpoint_save g) (acts E l g)).rand
      = (acts E l g).rand ∧
    (bennet_checkpoint_restore (bennet_checkpoint_save g)
        (acts E l g)).rand.global_rand_alloc.regions
      = (acts E l g).rand.global_rand_alloc.regions ∧
    (∀ cp, (bennet_checkpoint_restore cp (acts E l g)).rand = (acts E l g).rand) ∧
    (∀ o n, overlaps (bennet_checkpoint_restore (bennet_checkpoint_save g)
        (acts E l g)).rand.global_rand_alloc.regions o n
      = overlaps (acts E l g).rand.global_rand_alloc.regions o n) ∧
    (∀ c, call E c (bennet_checkpoint_restore (bennet_checkpoint_save g) (acts E l g)).rand
      = call E c (acts E l g).rand) ∧
    (∀ r ∈ (acts E l g).rand.global_rand_alloc.regions, ∀ o n b,
      o + n < SZ →
      (∀ x ∈ (acts E l g).rand.global_rand_alloc.regions, x.offset + x.length < SZ) →
      o ≤ b → b < o + n → r.offset ≤ b → b < r.offset + r.length →
      overlaps (bennet_checkpoint_restore (bennet_checkpoint_save g)
        (acts E l g)).rand.global_rand_alloc.regions o n = true) := by
  refine ⟨fun _ => rfl, rfl, rfl, fun _ => rfl, fun _ _ => rfl, fun _ => rfl, ?_⟩
  intro r hr o n b h1 h2 hb1 hb2 hb3 hb4
  show overlaps (acts E l g).rand.global_rand_alloc.regions o n = true
  rw [overlaps_eq_true_iff _ o n h1 h2]
  exact ⟨r, hr, by omega⟩

end RandAlloc

namespace SortedList

/-! ### The heap and list segments -/

theorem load_take_owned (h : Heap) (a b : Nat) :
    load (take_owned h a) b = if b = a then none else load h b := by
  unfold load take_owned
  induction h with
  | nil => simp
  | cons e rest ih =>
    obtain ⟨k, v⟩ := e
    by_cases hk : k = a
    · subst hk
      by_cases hb : b = k
      · subst hb
        simp [List.filter_cons] at ih ⊢
        exact ih
      · have hne : ¬ (b == k) = true := by simpa using hb
        simp only [List.filter_cons, bne_self_eq_false, Bool.false_eq_true, if_false, ih, hb,
          List.lookup_cons, hne]
    · have hka : (k != a) = true := by simpa using hk
      by_cases hb : b = a
      · subst hb
        have hbk : ¬ (b == k) = true := by
          simp only [beq_iff_eq]
          exact fun h => hk h.symm
        simp only [List.filter_cons, hka, if_true, List.lookup_cons, hbk, ih]
      · simp only [List.filter_cons, hka, if_true, List.lookup_cons, ih, hb, if_false]

theorem load_store (h : Heap) (a : Nat) (v : struct_List) (b : Nat) :
    load (store h a v) b = if b = a then some v else load h b := by
  by_cases hb : b = a
  · subst hb
    simp [load, store, List.lookup_cons]
  · have hne : ¬ (b == a) = true := by simpa using hb
    have := load_take_owned h a b
    simp only [hb, if_false] at this
    simp only [hb, if_false, ← this]
    simp [load, store, List.lookup_cons, hne]


theorem seg_of_eq (h : Heap) (n p t : Nat) (pv : Int) (hpt : p = t) :
    ListSegmentAux h (n + 1) p t pv = some .Nil := by
  simp only [ListSegmentAux]
  exact if_pos hpt

theorem seg_cons_intro (h : Heap) (n p t : Nat) (pv : Int) (head : struct_List)
    (tail : IntList) (hpt : p ≠ t) (hl : load h p = some head) (hpv : pv ≤ head.value)
    (hrec : ListSegmentAux (take_owned h p) n head.next t head.value = some tail) :
    ListSegmentAux h (n + 1) p t pv = some (.Cons head.value tail) := by
  simp only [ListSegmentAux]
  rw [if_neg hpt, hl]
  simp only []
  rw [if_pos hpv, hrec]
  rfl

theorem seg_inv (h : Heap) (n p t : Nat) (pv : Int) (L : IntList)
    (hs : ListSegmentAux h n p t pv = some L) :
    ∃ n0, n = n0 + 1 ∧
      ((p = t ∧ L = .Nil) ∨
        (p ≠ t ∧ ∃ head tail, load h p = some head ∧ pv ≤ head.value ∧
          ListSegmentAux (take_owned h p) n0 head.next t head.value = some tail ∧
          L = .Cons head.value tail)) := by
  cases n with
  | zero => exact Option.noConfusion hs
  | succ n0 =>
    refine ⟨n0, rfl, ?_⟩
    simp only [ListSegmentAux] at hs
    by_cases hpt : p = t
    · rw [if_pos hpt] at hs
      left
      exact ⟨hpt, (Option.some.inj hs).symm⟩
    · rw [if_neg hpt] at hs
      right
      refine ⟨hpt, ?_⟩
      cases hl : load h p with
      | none =>
        rw [hl] at hs
        exact Option.noConfusion hs
      | some head =>
        rw [hl] at hs
        simp only [] at hs
        by_cases hpv : pv ≤ head.value
        · rw [if_pos hpv] at hs
          cases hrec : ListSegmentAux (take_owned h p) n0 head.next t head.value with
          | none =>
            rw [hrec] at hs
            exact Option.noConfusion hs
          | some tail =>
            rw [hrec] at hs
            exact ⟨head, tail, rfl, hpv, hrec, (Option.some.inj hs).symm⟩
        · rw [if_neg hpv] at hs
          exact Option.noConfusion hs

/-- A segment read in a heap is read in every heap that owns the same objects and more. -/
theorem seg_mono : ∀ (n : Nat) (h H : Heap) (p t : Nat) (pv : Int) (L : IntList),
    ListSegmentAux h n p t pv = some L →
    (∀ b v, load h b = some v → load H b = some v) →
    ListSegmentAux H n p t pv = some L := by
  intro n
  induction n with
  | zero => intro h H p t pv L hs; exact Option.noConfusion hs
  | succ n ih =>
    intro h H p t pv L hs hsub
    obtain ⟨n0, hn, hcase⟩ := seg_inv h (n + 1) p t pv L hs
    have hn0 : n0 = n := by omega
    subst hn0
    rcases hcase with ⟨hpt, hL⟩ | ⟨hpt, head, tail, hl, hpv, hrec, hL⟩
    · rw [hL]; exact seg_of_eq H n0 p t pv hpt
    · rw [hL]
      refine seg_cons_intro H n0 p t pv head tail hpt (hsub p head hl) hpv ?_
      apply ih _ _ _ _ _ _ hrec
      intro b v hb
      rw [load_take_owned] at hb ⊢
      by_cases hbp : b = p
      · rw [if_pos hbp] at hb
        exact Option.noConfusion hb
      · rw [if_neg hbp] at hb ⊢
        exact hsub b v hb

/-- More fuel reads the same segment. -/
theorem seg_fuel : ∀ (n : Nat) (h : Heap) (p t : Nat) (pv : Int) (L : IntList),
    ListSegmentAux h n p t pv = some L → ∀ m, n ≤ m → ListSegmentAux h m p t pv = some L := by
  intro n
  induction n with
  | zero => intro h p t pv L hs; exact Option.noConfusion hs
  | succ n ih =>
    intro h p t pv L hs m hm
    obtain ⟨m0, rfl⟩ : ∃ m0, m = m0 + 1 := ⟨m - 1, by omega⟩
    obtain ⟨n0, hn, hcase⟩ := seg_inv h (n + 1) p t pv L hs
    have hn0 : n0 = n := by omega
    subst hn0
    rcases hcase with ⟨hpt, hL⟩ | ⟨hpt, head, tail, hl, hpv, hrec, hL⟩
    · rw [hL]; exact seg_of_eq h m0 p t pv hpt
    · rw [hL]
      exact seg_cons_intro h m0 p t pv head tail hpt hl hpv (ih _ _ _ _ _ hrec m0 (by omega))

theorem take_owned_length_le (h : Heap) (a : Nat) : (take_owned h a).length ≤ h.length :=
  List.length_filter_le _ _

theorem take_owned_length_lt (h : Heap) (a : Nat) (v : struct_List) (hl : load h a = some v) :
    (take_owned h a).length < h.length := by
  unfold load take_owned at *
  induction h with
  | nil => simp at hl
  | cons e rest ih =>
    obtain ⟨k, w⟩ := e
    by_cases hk : a = k
    · subst hk
      have : (a != a) = false := by simp
      simp only [List.filter_cons, this, Bool.false_eq_true, if_false, List.length_cons]
      have := List.length_filter_le (fun e : Nat × struct_List => e.1 != a) rest
      omega
    · have hne : ¬ (a == k) = true := by simpa using hk
      simp only [List.lookup_cons, hne] at hl
      have hka : (k != a) = true := by
        simp only [bne_iff_ne, ne_eq]
        exact fun h => hk h.symm
      simp only [List.filter_cons, hka, if_true, List.length_cons]
      have := ih hl
      omega

theorem take_owned_of_not_owned (h : Heap) (a : Nat) (hl : load h a = none) :
    take_owned h a = h := by
  unfold load take_owned at *
  induction h with
  | nil => rfl
  | cons e rest ih =>
    obtain ⟨k, w⟩ := e
    by_cases hk : a = k
    · subst hk
      simp [List.lookup_cons] at hl
    · have hne : ¬ (a == k) = true := by simpa using hk
      simp only [List.lookup_cons, hne] at hl
      have hka : (k != a) = true := by
        simp only [bne_iff_ne, ne_eq]
        exact fun h => hk h.symm
      simp only [List.filter_cons, hka, if_true]
      rw [ih hl]

/-- Fuel above the size of the heap reads every segment the heap holds. -/
theorem seg_fuel_heap : ∀ (n : Nat) (h : Heap) (p t : Nat) (pv : Int) (L : IntList),
    ListSegmentAux h n p t pv = some L → ListSegmentAux h (h.length + 1) p t pv = some L := by
  intro n
  induction n with
  | zero => intro h p t pv L hs; exact Option.noConfusion hs
  | succ n ih =>
    intro h p t pv L hs
    obtain ⟨n0, hn, hcase⟩ := seg_inv h (n + 1) p t pv L hs
    have hn0 : n0 = n := by omega
    subst hn0
    rcases hcase with ⟨hpt, hL⟩ | ⟨hpt, head, tail, hl, hpv, hrec, hL⟩
    · rw [hL]; exact seg_of_eq h _ p t pv hpt
    · rw [hL]
      refine seg_cons_intro h _ p t pv head tail hpt hl hpv ?_
      have h1 := ih _ _ _ _ _ hrec
      have h2 := take_owned_length_lt h p head hl
      exact seg_fuel _ _ _ _ _ _ h1 _ (by omega)


theorem insert_loop_null (H : Heap) (x : Int) (fuel prev : Nat) :
    insert_loop H x (fuel + 1) prev 0 = some (prev, 0) := by
  simp only [insert_loop]
  rfl

theorem insert_loop_step (H : Heap) (x : Int) (fuel prev cur : Nat) (c : struct_List)
    (hcur : cur ≠ 0) (hl : load H cur = some c) (hv : c.value < x) :
    insert_loop H x (fuel + 1) prev cur = insert_loop H x fuel cur c.next := by
  simp only [insert_loop]
  rw [if_neg hcur, hl]
  simp only []
  rw [if_pos hv]

theorem insert_loop_stop (H : Heap) (x : Int) (fuel prev cur : Nat) (c : struct_List)
    (hcur : cur ≠ 0) (hl : load H cur = some c) (hv : ¬ c.value < x) :
    insert_loop H x (fuel + 1) prev cur = some (prev, cur) := by
  simp only [insert_loop]
  rw [if_neg hcur, hl]
  simp only []
  rw [if_neg hv]

theorem insertList_true_lt (x v : Int) (t : IntList) (hv : v < x) :
    insertList true x (.Cons v t) = .Cons v (insertList true x t) := by
  simp only [insertList]
  rw [if_pos hv]

theorem insertList_true_ge (x v : Int) (t : IntList) (hv : ¬ v < x) :
    insertList true x (.Cons v t) = .Cons x (.Cons v t) := by
  simp only [insertList]
  rw [if_neg hv]
  rfl

/-- The walk of `insert` along a list segment. -/
theorem insert_walk (node : Nat) (x : Int) (hnode : node ≠ 0) :
    ∀ (L : IntList) (h : Heap) (n p : Nat) (pv : Int) (prev : Nat),
      ListSegmentAux h n p 0 pv = some L → load h node = none →
      ∀ (H : Heap) (fuel : Nat), (∀ b v, load h b = some v → load H b = some v) → n ≤ fuel →
      ∃ prev1 cur1, insert_loop H x fuel prev p = some (prev1, cur1) ∧
        ((prev1 = prev ∧ cur1 = p ∧ ListSegmentAux h n p 0 x = some L ∧
            insertList true x L = .Cons x L) ∨
          (prev1 ≠ 0 ∧ ∃ pn, load h prev1 = some pn ∧
            ∀ Hf : Heap, (∀ b v, b ≠ prev1 → load h b = some v → load Hf b = some v) →
              load Hf prev1 = some { pn with next := node } →
              load Hf node = some { value := x, next := cur1 } →
              ListSegmentAux Hf (n + 1) p 0 pv = some (insertList true x L))) := by
  intro L
  induction L with
  | Nil =>
    intro h n p pv prev hs hfresh H fuel hsub hfuel
    obtain ⟨n0, hn, hcase⟩ := seg_inv h n p 0 pv .Nil hs
    rcases hcase with ⟨hp, -⟩ | ⟨-, head, tail, -, -, -, hL⟩
    · subst hp
      obtain ⟨f0, rfl⟩ : ∃ f0, fuel = f0 + 1 := ⟨fuel - 1, by omega⟩
      refine ⟨prev, 0, insert_loop_null H x f0 prev, Or.inl ⟨rfl, rfl, ?_, rfl⟩⟩
      rw [hn]
      exact seg_of_eq h n0 0 0 x rfl
    · exact IntList.noConfusion hL
  | Cons v t ih =>
    intro h n p pv prev hs hfresh H fuel hsub hfuel
    obtain ⟨n0, hn, hcase⟩ := seg_inv h n p 0 pv (.Cons v t) hs
    rcases hcase with ⟨-, hL⟩ | ⟨hp, head, tail, hl, hpv, hrec, hL⟩
    · exact IntList.noConfusion hL
    · injection hL with hv1 ht1
      subst hv1 ht1
      subst hn
      obtain ⟨f0, rfl⟩ : ∃ f0, fuel = f0 + 1 := ⟨fuel - 1, by omega⟩
      have hpn : p ≠ node := by
        intro hpe
        rw [hpe, hfresh] at hl
        exact Option.noConfusion hl
      by_cases hv : head.value < x
      · have hfresh2 : load (take_owned h p) node = none := by
          rw [load_take_owned]
          by_cases hnp : node = p
          · exact if_pos hnp
          · rw [if_neg hnp]; exact hfresh
        have hsub2 : ∀ b w, load (take_owned h p) b = some w → load H b = some w := by
          intro b w hb
          rw [load_take_owned] at hb
          by_cases hbp : b = p
          · rw [if_pos hbp] at hb
            exact Option.noConfusion hb
          · rw [if_neg hbp] at hb
            exact hsub b w hb
        obtain ⟨prev1, cur1, hloop, hcases⟩ :=
          ih (take_owned h p) n0 head.next head.value p hrec hfresh2 H f0 hsub2 (by omega)
        refine ⟨prev1, cur1, ?_, Or.inr ?_⟩
        · rw [insert_loop_step H x f0 prev p head hp (hsub p head hl) hv]
          exact hloop
        · rw [insertList_true_lt x head.value t hv]
          rcases hcases with ⟨hp1, hc1, hseg, hins⟩ | ⟨hp1, pn, hpn1, hread⟩
          · subst hp1 hc1
            refine ⟨hp, head, hl, ?_⟩
            intro Hf hf1 hf2 hf3
            rw [hins]
            have hread1 : ListSegmentAux (take_owned (take_owned Hf prev1) node) n0 head.next 0 x
                = some t := by
              apply seg_mono _ _ _ _ _ _ _ hseg
              intro b w hb
              rw [load_take_owned] at hb
              by_cases hbp : b = prev1
              · rw [if_pos hbp] at hb
                exact Option.noConfusion hb
              · rw [if_neg hbp] at hb
                have hbn : b ≠ node := by
                  intro hbe
                  rw [hbe, hfresh] at hb
                  exact Option.noConfusion hb
                rw [load_take_owned, if_neg hbn, load_take_owned, if_neg hbp]
                exact hf1 b w hbp hb
            have hread2 : ListSegmentAux (take_owned Hf prev1) (n0 + 1) node 0 head.value
                = some (.Cons x t) := by
              have hln : load (take_owned Hf prev1) node
                  = some { value := x, next := head.next } := by
                rw [load_take_owned, if_neg (fun hh => hpn hh.symm)]
                exact hf3
              exact seg_cons_intro (take_owned Hf prev1) n0 node 0 head.value
                { value := x, next := head.next } t hnode hln (le_of_lt hv) hread1
            exact seg_cons_intro Hf (n0 + 1) prev1 0 pv { head with next := node }
              (.Cons x t) hp hf2 hpv hread2
          · have hne : prev1 ≠ p := by
              intro hpe
              rw [hpe, load_take_owned, if_pos rfl] at hpn1
              exact Option.noConfusion hpn1
            have hpn2 : load h prev1 = some pn := by
              rw [load_take_owned, if_neg hne] at hpn1
              exact hpn1
            refine ⟨hp1, pn, hpn2, ?_⟩
            intro Hf hf1 hf2 hf3
            have hlp : load Hf p = some head := hf1 p head (fun hh => hne hh.symm) hl
            refine seg_cons_intro Hf (n0 + 1) p 0 pv head _ hp hlp hpv ?_
            apply hread (take_owned Hf p)
            · intro b w hb1 hb
              rw [load_take_owned] at hb
              by_cases hbp : b = p
              · rw [if_pos hbp] at hb
                exact Option.noConfusion hb
              · rw [if_neg hbp] at hb
                rw [load_take_owned, if_neg hbp]
                exact hf1 b w hb1 hb
            · rw [load_take_owned, if_neg hne]
              exact hf2
            · rw [load_take_owned, if_neg (fun hh => hpn hh.symm)]
              exact hf3
      · refine ⟨prev, p, insert_loop_stop H x f0 prev p head hp (hsub p head hl) hv,
          Or.inl ⟨rfl, rfl, ?_, insertList_true_ge x head.value t hv⟩⟩
        exact seg_cons_intro h n0 p 0 x head t hp hl (not_lt.mp hv) hrec


/-- What `insert` computes: for every `i32` value `x` and every memory whose list at `*xs` is a
non-decreasing null-terminated list `L`, with the new object at a fresh non-null address,
`insert(x, xs)` returns and leaves at `*xs` a non-decreasing null-terminated list whose value
sequence is `insertList(true, x, L)`. -/
theorem insert_eq_insertList_true (node : Nat) (x : Int) (m : Memory) (L : IntList)
    (hnode : node ≠ 0) (hfresh : load m.heap node = none) (hx : MINi32 ≤ x)
    (hL : ListSegment m.heap m.xs_cell 0 = some L) :
    ∃ m1, insert node x m = some m1 ∧
      ListSegment m1.heap m1.xs_cell 0 = some (insertList true x L) := by
  unfold ListSegment at hL
  have hsub : ∀ b v, load m.heap b = some v →
      load (store m.heap node { value := x, next := 0 }) b = some v := by
    intro b v hb
    have hbn : b ≠ node := by
      intro hbe
      rw [hbe, hfresh] at hb
      exact Option.noConfusion hb
    rw [load_store, if_neg hbn]
    exact hb
  have hlen : (store m.heap node { value := x, next := 0 }).length = m.heap.length + 1 := by
    unfold store
    rw [take_owned_of_not_owned m.heap node hfresh]
    rfl
  obtain ⟨prev1, cur1, hloop, hcases⟩ :=
    insert_walk node x hnode L m.heap (m.heap.length + 1) m.xs_cell MINi32 0 hL hfresh
      (store m.heap node { value := x, next := 0 })
      ((store m.heap node { value := x, next := 0 }).length + 1) hsub (by omega)
  rcases hcases with ⟨hp1, hc1, hseg, hins⟩ | ⟨hp1, pn, hpn1, hread⟩
  · subst hp1 hc1
    refine ⟨{ xs_cell := node
              heap := store (store m.heap node { value := x, next := 0 }) node
                { value := x, next := m.xs_cell } }, ?_, ?_⟩
    · unfold insert
      simp only []
      rw [hloop]
      simp only []
      rw [if_neg (not_not.mpr rfl)]
    · unfold ListSegment
      apply seg_fuel_heap (m.heap.length + 1 + 1)
      rw [hins]
      refine seg_cons_intro _ (m.heap.length + 1) node 0 MINi32
        { value := x, next := m.xs_cell } L hnode ?_ hx ?_
      · rw [load_store, if_pos rfl]
      · apply seg_mono _ _ _ _ _ _ _ hseg
        intro b v hb
        have hbn : b ≠ node := by
          intro hbe
          rw [hbe, hfresh] at hb
          exact Option.noConfusion hb
        rw [load_take_owned, if_neg hbn, load_store, if_neg hbn]
        exact hsub b v hb
  · have hpn2 : load (store m.heap node { value := x, next := 0 }) prev1 = some pn :=
      hsub prev1 pn hpn1
    have hpnode : prev1 ≠ node := by
      intro hbe
      rw [hbe, hfresh] at hpn1
      exact Option.noConfusion hpn1
    refine ⟨{ xs_cell := m.xs_cell
              heap := store (store (store m.heap node { value := x, next := 0 }) prev1
                { pn with next := node }) node { value := x, next := cur1 } }, ?_, ?_⟩
    · unfold insert
      simp only []
      rw [hloop]
      simp only []
      rw [if_pos hp1, hpn2]
    · unfold ListSegment
      apply seg_fuel_heap (m.heap.length + 1 + 1)
      apply hread
      · intro b v hb1 hb
        have hbn : b ≠ node := by
          intro hbe
          rw [hbe, hfresh] at hb
          exact Option.noConfusion hb
        rw [load_store, if_neg hbn, load_store, if_neg hb1]
        exact hsub b v hb
      · rw [load_store, if_neg hpnode, load_store, if_pos rfl]
      · rw [load_store, if_pos rfl]


/-- Without an occurrence of `x` in the list, `insertList` gives the same list with and without
duplicates allowed. -/
theorem insertList_false_eq_true (x : Int) :
    ∀ L : IntList, ¬ occurs x L → insertList false x L = insertList true x L := by
  intro L
  induction L with
  | Nil => intro _; rfl
  | Cons v t ih =>
    intro hocc
    have hv : v ≠ x := fun h => hocc (Or.inl h)
    have ht : ¬ occurs x t := fun h => hocc (Or.inr h)
    simp only [insertList]
    by_cases hlt : v < x
    · rw [if_pos hlt, if_pos hlt, ih ht]
    · rw [if_neg hlt, if_neg hlt]
      have hbeq : (v == x) = false := by simpa using hv
      simp [hbeq]

/-- The postcondition of `insert` holds on lists in which `x` does not occur: the list left at
`*xs` is `insertList(false, x, L)`. -/
theorem insert_meets_postcondition_without_occurrence (node : Nat) (x : Int) (m : Memory)
    (L : IntList) (hnode : node ≠ 0) (hfresh : load m.heap node = none) (hx : MINi32 ≤ x)
    (hL : ListSegment m.heap m.xs_cell 0 = some L) (hocc : ¬ occurs x L) :
    ∃ m1, insert node x m = some m1 ∧
      ListSegment m1.heap m1.xs_cell 0 = some (insertList false x L) := by
  rw [insertList_false_eq_true x L hocc]
  exact insert_eq_insertList_true node x m L hnode hfresh hx hL

/-- C20, failing input: `insert(2, xs)` on the non-decreasing list `[1, 2, 3]` (new object at
address 64) leaves the non-decreasing list `[1, 2, 2, 3]` at `*xs`, while
`insertList(false, 2, [1, 2, 3])` is `[1, 2, 3]`; and `insert(1, xs)` on `[1]` leaves `[1, 1]`,
while `insertList(false, 1, [1])` is `[1]`. The loop stops at the first element that is not
below `x` and the new object is always linked in; the result for `[1, 2, 3]` is
`insertList(true, 2, [1, 2, 3])`, as it is for every list. -/
theorem insert_duplicates_equal_element :
    ListSegment memory_123.heap memory_123.xs_cell 0
      = some (.Cons 1 (.Cons 2 (.Cons 3 .Nil))) ∧
    insert 64 2 memory_123
      = some { xs_cell := 16
               heap := [(64, { value := 2, next := 32 }), (16, { value := 1, next := 64 }),
                 (32, { value := 2, next := 48 }), (48, { value := 3, next := 0 })] } ∧
    ListSegment [(64, { value := 2, next := 32 }), (16, { value := 1, next := 64 }),
        (32, { value := 2, next := 48 }), (48, { value := 3, next := 0 })] 16 0
      = some (.Cons 1 (.Cons 2 (.Cons 2 (.Cons 3 .Nil)))) ∧
    insertList false 2 (.Cons 1 (.Cons 2 (.Cons 3 .Nil))) = .Cons 1 (.Cons 2 (.Cons 3 .Nil)) ∧
    insertList true 2 (.Cons 1 (.Cons 2 (.Cons 3 .Nil)))
      = .Cons 1 (.Cons 2 (.Cons 2 (.Cons 3 .Nil))) ∧
    ListSegment memory_1.heap memory_1.xs_cell 0 = some (.Cons 1 .Nil) ∧
    insert 32 1 memory_1
      = some { xs_cell := 32
               heap := [(32, { value := 1, next := 16 }), (16, { value := 1, next := 0 })] } ∧
    ListSegment [(32, { value := 1, next := 16 }), (16, { value := 1, next := 0 })] 32 0
      = some (.Cons 1 (.Cons 1 .Nil)) ∧
    insertList false 1 (.Cons 1 .Nil) = .Cons 1 .Nil :=
  ⟨by decide, by decide, by decide, by decide, by decide, by decide, by decide, by decide,
    by decide⟩

end SortedList
